import Mathlib

/-!
# Verification of the test-reactor guest and demo harness

A shallow embedding of the repository's guest component
(`src/guest/src/lib.rs`) and the parts of the host demo harness
(`src/host/src/main.rs`) that drive it, together with a model of the
Canonical ABI that the spec describes (the ABI implementation itself is
delegated to external generators and is not part of the repository's
source tree).

Strings are modelled as lists of characters (`Str`), the guest's
process-wide `STATE : Vec<String>` as a `List Str` threaded explicitly,
and the environment capability as an association list.
-/

namespace TestReactor

/-- Guest strings, modelled as lists of characters. -/
abbrev Str := List Char

/-- The environment capability: an association list of bindings,
as seeded by the host's `WasiCtxBuilder::push_env` calls. -/
abbrev Env := List (Str × Str)

/-- `std::env::var`: look up a name in the environment; `none` models
`Err(VarError::NotPresent)`. -/
def envVar (env : Env) (k : Str) : Option Str :=
  env.lookup k

/-- Rust's `str::split_once` with a one-character pattern: split at the
first occurrence of `d`, returning the parts before and after it, or
`none` when `d` does not occur. -/
def split_once (d : Char) : Str → Option (Str × Str)
  | [] => none
  | c :: cs =>
    if c = d then some ([], cs)
    else (split_once d cs).map (fun p => (c :: p.1, p.2))

/-- The body of the `add_strings` loop for a single string `s`:
`match s.split_once("$") { Some((prefix, var)) if prefix.is_empty() =>`
look `var` up in the environment, pushing its value on success and the
literal `"undefined"` on failure; any other shape pushes `s` unchanged. -/
def interpOne (env : Env) (s : Str) : Str :=
  match split_once '$' s with
  | some (pre, var) =>
    if pre = [] then
      match envVar env var with
      | some val => val
      | none => "undefined".data
    else s
  | none => s

/-- `add_strings(ss)`: push each interpolated string onto the guest
state, then return `STATE.len() as u32` (truncated to 32 bits).
The result is the new state paired with the returned `u32`. -/
def add_strings (env : Env) (state : List Str) (ss : List Str) :
    List Str × Nat :=
  let state' := state ++ ss.map (interpOne env)
  (state', state'.length % 2 ^ 32)

/-- `get_strings()`: return a clone of the accumulated state. -/
def get_strings (state : List Str) : List Str :=
  state

/-- An output-stream capability: a sink state type together with a
write operation; `none` models `Err(StreamError)` from
`wasi::io::streams::write`. -/
def WriteOp (σ : Type) := σ → List Char → Option σ

/-- The loop of `write_strings_to`: for each stored string `s` write
`format!("{s}\n")` to the stream, propagating the first failure with
`Err(())` (modelled as `none` in the second component); the first
component is the sink state reached. -/
def writeLoop {σ : Type} (wr : WriteOp σ) : List Str → σ → σ × Option Unit
  | [], sink => (sink, some ())
  | s :: rest, sink =>
    match wr sink (s ++ ['\n']) with
    | some sink' => writeLoop wr rest sink'
    | none => (sink, none)

/-- `write_strings_to(o)`: iterate over `get_strings()` (a clone of the
state); the guest state itself is returned unchanged alongside the sink
state and the `Result<(), ()>`. -/
def write_strings_to {σ : Type} (wr : WriteOp σ) (state : List Str)
    (sink : σ) : List Str × σ × Option Unit :=
  let r := writeLoop wr (get_strings state) sink
  (state, r.1, r.2)

/-- The host's `MemoryOutputPipe` write: append the bytes to the
in-memory buffer; it never fails. -/
def memWrite : WriteOp (List Char) :=
  fun buf bs => some (buf ++ bs)

/-- The environment the demo harness seeds:
`GOOD_DOG=gussie`, `POUTY_DOG=willa`. -/
def demoEnv : Env :=
  [("GOOD_DOG".data, "gussie".data), ("POUTY_DOG".data, "willa".data)]

/-- The newline-framed reader of `demo_async_output_stream`: consume
the received bytes one at a time, closing the current frame at each
`'\n'`; the result is the list of completed frames paired with the
buffer still pending when end-of-stream is reached. -/
def framesAux (buf : List Char) : List Char → List (List Char) × List Char
  | [] => ([], buf)
  | c :: cs =>
    if c = '\n' then
      let r := framesAux [] cs
      (buf :: r.1, r.2)
    else framesAux (buf ++ [c]) cs

/-- Frames observed by the reader over a whole byte stream, starting
with an empty buffer. -/
def frames (bs : List Char) : List (List Char) × List Char :=
  framesAux [] bs

/-- The sink state reached after successfully writing the given strings
(each followed by a newline) in order; `none` if some write fails. -/
def sinkAfter {σ : Type} (wr : WriteOp σ) : List Str → σ → Option σ
  | [], sink => some sink
  | s :: rest, sink =>
    match wr sink (s ++ ['\n']) with
    | some sink' => sinkAfter wr rest sink'
    | none => none

/-- A sink of byte capacity 6, used to exhibit a failing write: the
write fails (returning `none`) once it would push the buffer past six
bytes. -/
def cappedWrite : WriteOp (List Char) :=
  fun buf bs => if buf.length + bs.length ≤ 6 then some (buf ++ bs) else none


/-- One decimal digit character. -/
def digitChar : Nat → Char
  | 0 => '0' | 1 => '1' | 2 => '2' | 3 => '3' | 4 => '4'
  | 5 => '5' | 6 => '6' | 7 => '7' | 8 => '8' | _ => '9'

/-- Fuel-driven loop producing the decimal digits of `n` (most
significant first) in front of `acc`. -/
def decGo : Nat → Nat → List Char → List Char
  | 0, _, acc => acc
  | f + 1, n, acc =>
    if n < 10 then digitChar n :: acc
    else decGo f (n / 10) (digitChar (n % 10) :: acc)

/-- Decimal rendering of an unsigned integer, as Rust's `Display` and
derived `Debug` implementations produce it (no sign, no leading
zeros, `0` rendered as `"0"`). -/
def dec (n : Nat) : List Char :=
  decGo (n + 1) n []

/-- `wasi::filesystem::filesystem::DescriptorType`, in the declaration
order of the `wit` schema shared by guest and host. -/
inductive DescriptorType
  | unknown | blockDevice | characterDevice | directory | fifo
  | symbolicLink | regularFile | socket
deriving DecidableEq

/-- The variant name printed by the derived `Debug` of
`DescriptorType`. -/
def typeName : DescriptorType → List Char
  | .unknown => "Unknown".data
  | .blockDevice => "BlockDevice".data
  | .characterDevice => "CharacterDevice".data
  | .directory => "Directory".data
  | .fifo => "Fifo".data
  | .symbolicLink => "SymbolicLink".data
  | .regularFile => "RegularFile".data
  | .socket => "Socket".data

/-- `wasi::clocks::wall_clock::Datetime`: `seconds` is a `u64`,
`nanoseconds` a `u32`. -/
structure Datetime where
  seconds : Nat
  nanoseconds : Nat
deriving DecidableEq

/-- `wasi::filesystem::filesystem::DescriptorStat`, fields in the
declaration order of the `wit` schema (`u64` fields as `Nat`). -/
structure DescriptorStat where
  device : Nat
  inode : Nat
  type_ : DescriptorType
  linkCount : Nat
  size : Nat
  dataAccessTimestamp : Datetime
  dataModificationTimestamp : Datetime
  statusChangeTimestamp : Datetime
deriving DecidableEq

/-- The derived `Debug` rendering of a `Datetime` value, as
`format!("\x7bstat:?\x7d")` prints it. -/
def debugDatetime (d : Datetime) : List Char :=
  "Datetime \x7b seconds: ".data ++ dec d.seconds
    ++ ", nanoseconds: ".data ++ dec d.nanoseconds ++ " \x7d".data

/-- The derived `Debug` rendering of a `DescriptorStat` value. -/
def debugDescriptorStat (s : DescriptorStat) : List Char :=
  "DescriptorStat \x7b device: ".data ++ dec s.device
    ++ ", inode: ".data ++ dec s.inode
    ++ ", type_: ".data ++ typeName s.type_
    ++ ", link_count: ".data ++ dec s.linkCount
    ++ ", size: ".data ++ dec s.size
    ++ ", data_access_timestamp: ".data
    ++ debugDatetime s.dataAccessTimestamp
    ++ ", data_modification_timestamp: ".data
    ++ debugDatetime s.dataModificationTimestamp
    ++ ", status_change_timestamp: ".data
    ++ debugDatetime s.statusChangeTimestamp
    ++ " \x7d".data

/-- The guest's `pass_an_imported_record`: `format!("\x7bstat:?\x7d")`. -/
def pass_an_imported_record (stat : DescriptorStat) : List Char :=
  debugDescriptorStat stat

/-- The host side of `demo_wasi_structures`: the expected string is
`format!("\x7bds:?\x7d")`, the same derived `Debug` rendering of the same
record (guest and host bindings are generated from the identical `wit`
schema). -/
def hostExpectedRendering (ds : DescriptorStat) : List Char :=
  debugDescriptorStat ds

/-- The fully-populated record `demo_wasi_structures` builds. -/
def demoStat : DescriptorStat :=
  ⟨0, 0, .unknown, 0, 0, ⟨45, 123⟩, ⟨10, 789⟩, ⟨1, 0⟩⟩

end TestReactor

namespace Abi

/-- Modelled from the spec: a byte of sandbox linear memory. -/
abbrev Byte := Nat

/-- Modelled from the spec: linear memory, abstracted as the arena of
regions the caller-side allocator has handed out. The allocator only
ever returns fresh disjoint regions, so a pointer is modelled as the
index of its region and lowering allocates by appending a region. -/
abbrev Mem := List (List Byte)

/-- Modelled from the spec: the schema types of section 3 — primitives,
aggregates, and resource handles. `enum` and `flags` carry their number
of cases and of flag bits. -/
inductive Ty where
  | bool | u8 | u16 | u32 | u64 | s8 | s16 | s32 | s64
  | f32 | f64 | char | string
  | list (t : Ty)
  | record (fields : List Ty)
  | tuple (elems : List Ty)
  | variant (cases : List (Option Ty))
  | enum (n : Nat)
  | flags (n : Nat)
  | option (t : Ty)
  | result (t e : Ty)
  | handle

/-- Modelled from the spec: logical values. Floats are carried as their
bit patterns (the ABI moves them as fixed-width little-endian bytes);
strings are carried as their utf-8 byte runs (length is byte count);
a handle is a `u32` index into the handle table. -/
inductive Val where
  | bool (b : Bool)
  | u8 (n : Nat) | u16 (n : Nat) | u32 (n : Nat) | u64 (n : Nat)
  | s8 (i : Int) | s16 (i : Int) | s32 (i : Int) | s64 (i : Int)
  | f32 (bits : Nat) | f64 (bits : Nat)
  | char (c : Nat)
  | string (bytes : List Byte)
  | list (elems : List Val)
  | record (fields : List Val)
  | tuple (elems : List Val)
  | variant (disc : Nat) (payload : Option Val)
  | enum (disc : Nat)
  | flags (bits : List Bool)
  | optNone | optSome (v : Val)
  | ok (v : Val) | err (v : Val)
  | handle (ix : Nat)

/-- Little-endian bytes of `n`, `w` bytes wide. -/
def leBytes : Nat → Nat → List Byte
  | 0, _ => []
  | w + 1, n => (n % 256) :: leBytes w (n / 256)

/-- Value of a little-endian byte run. -/
def leVal (bs : List Byte) : Nat :=
  bs.foldr (fun b acc => b + 256 * acc) 0

/-- Two's-complement signed reading of a little-endian byte run of
width `w`. -/
def sintOfLe (w : Nat) (bs : List Byte) : Int :=
  let n := leVal bs
  if n < 2 ^ (8 * w - 1) then (n : Int) else (n : Int) - 2 ^ (8 * w)

/-- The `u32` bitset encoding a flags value (least significant bit
first). -/
def bitsToNat (bits : List Bool) : Nat :=
  bits.foldr (fun b acc => (if b then 1 else 0) + 2 * acc) 0

/-- The `n` flag bits of a bitset value. -/
def natToBits : Nat → Nat → List Bool
  | 0, _ => []
  | n + 1, v => (v % 2 = 1) :: natToBits n (v / 2)

/-- Round `off` up to the next multiple of the alignment `a`. -/
def alignUp (off a : Nat) : Nat :=
  off + (a - off % a) % a

/-- Modelled from the spec: the smallest unsigned-integer byte width
whose range covers `n` variant cases. -/
def discSize (n : Nat) : Nat :=
  if n ≤ 2 ^ 8 then 1 else if n ≤ 2 ^ 16 then 2 else 4


/-- Modelled from the spec: the natural alignment of §4.2, computed
with explicit fuel (recursion depth); with fuel exceeding the nesting
depth of the type this is the spec's alignment. Aggregates take the
maximum alignment of their parts; a variant aligns to the larger of its
discriminant and its cases; strings, lists and handles are
pointer-sized (`u32`). -/
def alignF : Nat → Ty → Nat
  | 0, _ => 1
  | f + 1, t =>
    match t with
    | .bool | .u8 | .s8 => 1
    | .u16 | .s16 => 2
    | .u32 | .s32 | .f32 | .char | .string | .handle => 4
    | .u64 | .s64 | .f64 => 8
    | .list _ => 4
    | .record fs => (fs.map (alignF f)).foldl max 1
    | .tuple fs => (fs.map (alignF f)).foldl max 1
    | .variant cs =>
        max (discSize cs.length)
          ((cs.map (fun c => match c with
            | some t' => alignF f t'
            | none => 1)).foldl max 1)
    | .enum n => discSize n
    | .flags _ => 4
    | .option t' => max 1 (alignF f t')
    | .result t' e' => max 1 (max (alignF f t') (alignF f e'))

/-- The alignment of the payload region of a variant (fuel applies to
the case types). -/
def alignCasesF (f : Nat) (cs : List (Option Ty)) : Nat :=
  (cs.map (fun c => match c with
    | some t => alignF f t
    | none => 1)).foldl max 1

/-- Total size of a discriminant-plus-payload layout: a discriminant of
`ds` bytes, padding to the payload alignment `ap`, a payload region of
`mx` bytes, trailing padding to the overall alignment. -/
def taggedSize (ds ap mx : Nat) : Nat :=
  alignUp (alignUp ds ap + mx) (max ds ap)

/-- End offset after laying fields out in declaration order, each at
its natural alignment (`al`), advancing by its size (`sz`). -/
def offEndW (sz al : Ty → Nat) (ts : List Ty) (off : Nat) : Nat :=
  ts.foldl (fun o t => alignUp o (al t) + sz t) off

/-- Modelled from the spec: the byte size of a type's memory image per
§4.2, computed with explicit fuel. Fixed primitive widths; strings and
lists are a `(pointer, length)` pair of `u32`s; records lay fields out
in declaration order at natural alignment with trailing padding;
variants are the smallest-fitting discriminant plus a payload region
sized and aligned to the maximum case; `option` has a one-byte
discriminant followed by padding and the payload; `result` the union of
its cases; flags a `u32` bitset; a handle a `u32` index. -/
def sizeF : Nat → Ty → Nat
  | 0, _ => 0
  | f + 1, t =>
    match t with
    | .bool | .u8 | .s8 => 1
    | .u16 | .s16 => 2
    | .u32 | .s32 | .f32 | .char => 4
    | .u64 | .s64 | .f64 => 8
    | .string => 8
    | .list _ => 8
    | .record fs =>
        alignUp (offEndW (sizeF f) (alignF f) fs 0) (alignF (f + 1) (.record fs))
    | .tuple fs =>
        alignUp (offEndW (sizeF f) (alignF f) fs 0) (alignF (f + 1) (.tuple fs))
    | .variant cs =>
        taggedSize (discSize cs.length) (alignCasesF f cs)
          ((cs.map (fun c => match c with
            | some t' => sizeF f t'
            | none => 0)).foldl max 0)
    | .enum n => discSize n
    | .flags _ => 4
    | .option t' => taggedSize 1 (alignF f t') (sizeF f t')
    | .result t' e' =>
        taggedSize 1 (max (alignF f t') (alignF f e'))
          (max (sizeF f t') (sizeF f e'))
    | .handle => 4

/-- The maximum payload size over a variant's cases. -/
def maxCaseF (f : Nat) (cs : List (Option Ty)) : Nat :=
  (cs.map (fun c => match c with
    | some t => sizeF f t
    | none => 0)).foldl max 0

/-- Lower a sequence of values of element type `t`, threading the
memory allocator state. -/
def lowerSeq (low : Ty → Val → Mem → Option (List Byte × Mem)) (t : Ty) :
    List Val → Mem → Option (List (List Byte) × Mem)
  | [], m => some ([], m)
  | v :: vs, m =>
    match low t v m with
    | none => none
    | some (img, m₁) =>
      match lowerSeq low t vs m₁ with
      | none => none
      | some (imgs, m₂) => some (img :: imgs, m₂)

/-- Lower record fields in declaration order: pad the running offset to
each field's alignment, append the field image, and thread the
allocator state. Returns the body bytes, the end offset and the
memory. -/
def lowerFields (low : Ty → Val → Mem → Option (List Byte × Mem))
    (al : Ty → Nat) :
    List Ty → List Val → Nat → Mem → Option (List Byte × Nat × Mem)
  | [], [], off, m => some ([], off, m)
  | t :: ts, v :: vs, off, m =>
    match low t v m with
    | none => none
    | some (img, m₁) =>
      match lowerFields low al ts vs (alignUp off (al t) + img.length) m₁ with
      | none => none
      | some (rest, off₂, m₂) =>
        some (List.replicate (alignUp off (al t) - off) 0 ++ img ++ rest,
          off₂, m₂)
  | _, _, _, _ => none

/-- Lift a sequence of element images. -/
def liftSeq (lif : Ty → List Byte → Mem → Option Val) (t : Ty) :
    List (List Byte) → Mem → Option (List Val)
  | [], _ => some []
  | img :: imgs, m =>
    match lif t img m with
    | none => none
    | some v =>
      match liftSeq lif t imgs m with
      | none => none
      | some vs => some (v :: vs)

/-- Lift record fields from the body bytes, mirroring `lowerFields`:
skip the padding to each field's alignment, slice the field's image by
its size, and continue. -/
def liftFields (lif : Ty → List Byte → Mem → Option Val)
    (al sz : Ty → Nat) :
    List Ty → List Byte → Nat → Mem → Option (List Val)
  | [], _, _, _ => some []
  | t :: ts, bytes, off, m =>
    match lif t ((bytes.drop (alignUp off (al t) - off)).take (sz t)) m with
    | none => none
    | some v =>
      match liftFields lif al sz ts
        (bytes.drop ((alignUp off (al t) - off) + sz t))
        (alignUp off (al t) + sz t) m with
      | none => none
      | some vs => some (v :: vs)

/-- Slice a region into `c` chunks of `k` bytes each. -/
def takeChunks : Nat → Nat → List Byte → List (List Byte)
  | 0, _, _ => []
  | c + 1, k, l => l.take k :: takeChunks c k (l.drop k)

/-- Lower a signed integer of byte width `w`: range-check, then encode
the two's-complement value little-endian. -/
def lowerSInt (w : Nat) (i : Int) (m : Mem) : Option (List Byte × Mem) :=
  if -(2 ^ (8 * w - 1) : Int) ≤ i ∧ i < 2 ^ (8 * w - 1) then
    some (leBytes w (i % (2 ^ (8 * w))).toNat, m)
  else none

/-- Modelled from the spec: the Canonical ABI `lower` operation of
§4.2 — logical value plus memory allocator to flat bytes plus memory
writes — with explicit recursion fuel (`none` when the fuel runs out;
with fuel exceeding the nesting depth of the value the result is the
spec's encoding). Strings and lists allocate a region and lower to a
`(pointer, length)` pair; aggregates concatenate their parts with
alignment padding; a too-large allocation fails, as does a value
outside its type's range. -/
def lowerF : Nat → Ty → Val → Mem → Option (List Byte × Mem)
  | 0, _, _, _ => none
  | f + 1, t, v, m =>
    match t, v with
    | .bool, .bool b => some ([if b then 1 else 0], m)
    | .u8, .u8 n => if n < 256 ^ 1 then some (leBytes 1 n, m) else none
    | .u16, .u16 n => if n < 256 ^ 2 then some (leBytes 2 n, m) else none
    | .u32, .u32 n => if n < 256 ^ 4 then some (leBytes 4 n, m) else none
    | .u64, .u64 n => if n < 256 ^ 8 then some (leBytes 8 n, m) else none
    | .s8, .s8 i => lowerSInt 1 i m
    | .s16, .s16 i => lowerSInt 2 i m
    | .s32, .s32 i => lowerSInt 4 i m
    | .s64, .s64 i => lowerSInt 8 i m
    | .f32, .f32 bits =>
        if bits < 256 ^ 4 then some (leBytes 4 bits, m) else none
    | .f64, .f64 bits =>
        if bits < 256 ^ 8 then some (leBytes 8 bits, m) else none
    | .char, .char c =>
        if c < 0xD800 ∨ (0xE000 ≤ c ∧ c < 0x110000) then
          some (leBytes 4 c, m)
        else none
    | .string, .string bs =>
        if m.length < 2 ^ 32 ∧ bs.length < 2 ^ 32 ∧ bs.all (· < 256) then
          some (leBytes 4 m.length ++ leBytes 4 bs.length, m ++ [bs])
        else none
    | .list t', .list vs =>
        (match lowerSeq (lowerF f) t' vs m with
        | none => none
        | some (imgs, m₁) =>
          if m₁.length < 2 ^ 32 ∧ vs.length < 2 ^ 32 then
            some (leBytes 4 m₁.length ++ leBytes 4 vs.length,
              m₁ ++ [imgs.flatten])
          else none)
    | .record fs, .record vs =>
        (match lowerFields (lowerF f) (alignF f) fs vs 0 m with
        | none => none
        | some (body, endOff, m₁) =>
          some (body ++ List.replicate (sizeF (f + 1) (.record fs) - endOff) 0,
            m₁))
    | .tuple fs, .tuple vs =>
        (match lowerFields (lowerF f) (alignF f) fs vs 0 m with
        | none => none
        | some (body, endOff, m₁) =>
          some (body ++ List.replicate (sizeF (f + 1) (.tuple fs) - endOff) 0,
            m₁))
    | .variant cs, .variant d p =>
        let ds := discSize cs.length
        let off := alignUp ds (alignCasesF f cs)
        let total := sizeF (f + 1) (.variant cs)
        (match cs.get? d, p with
        | some none, none =>
            if d < 256 ^ ds then
              some (leBytes ds d ++ List.replicate (total - ds) 0, m)
            else none
        | some (some t'), some pv =>
          if d < 256 ^ ds then
            match lowerF f t' pv m with
            | none => none
            | some (img, m₁) =>
              some (leBytes ds d ++ (List.replicate (off - ds) 0
                ++ (img ++ List.replicate (total - (off + img.length)) 0)),
                m₁)
          else none
        | _, _ => none)
    | .enum n, .enum d =>
        if d < n ∧ d < 256 ^ discSize n then
          some (leBytes (discSize n) d, m)
        else none
    | .flags n, .flags bits =>
        if bits.length = n ∧ n ≤ 32 then some (leBytes 4 (bitsToNat bits), m)
        else none
    | .option t', .optNone =>
        some (0 :: List.replicate (sizeF (f + 1) (.option t') - 1) 0, m)
    | .option t', .optSome pv =>
        (match lowerF f t' pv m with
        | none => none
        | some (pimg, m₁) =>
          some (1 :: (List.replicate (alignUp 1 (alignF f t') - 1) 0
            ++ (pimg ++ List.replicate (sizeF (f + 1) (Ty.option t')
                - (alignUp 1 (alignF f t') + pimg.length)) 0)), m₁))
    | .result t' e', .ok pv =>
        (match lowerF f t' pv m with
        | none => none
        | some (pimg, m₁) =>
          some (0 :: (List.replicate
              (alignUp 1 (max (alignF f t') (alignF f e')) - 1) 0
            ++ (pimg ++ List.replicate (sizeF (f + 1) (Ty.result t' e')
                - (alignUp 1 (max (alignF f t') (alignF f e'))
                  + pimg.length)) 0)), m₁))
    | .result t' e', .err pv =>
        (match lowerF f e' pv m with
        | none => none
        | some (pimg, m₁) =>
          some (1 :: (List.replicate
              (alignUp 1 (max (alignF f t') (alignF f e')) - 1) 0
            ++ (pimg ++ List.replicate (sizeF (f + 1) (Ty.result t' e')
                - (alignUp 1 (max (alignF f t') (alignF f e'))
                  + pimg.length)) 0)), m₁))
    | .handle, .handle ix =>
        if ix < 2 ^ 32 then some (leBytes 4 ix, m) else none
    | _, _ => none

/-- Modelled from the spec: the Canonical ABI `lift` operation of
§4.2 — flat bytes plus memory view to logical value — with explicit
recursion fuel, mirroring `lowerF`. Pointers are followed through the
memory view; discriminants select the case to decode; padding bytes
are skipped. -/
def liftF : Nat → Ty → List Byte → Mem → Option Val
  | 0, _, _, _ => none
  | f + 1, t, img, m =>
    match t with
    | .bool =>
        match img with
        | [b] =>
          if b = 0 then some (.bool false)
          else if b = 1 then some (.bool true)
          else none
        | _ => none
    | .u8 => some (.u8 (leVal img))
    | .u16 => some (.u16 (leVal img))
    | .u32 => some (.u32 (leVal img))
    | .u64 => some (.u64 (leVal img))
    | .s8 => some (.s8 (sintOfLe 1 img))
    | .s16 => some (.s16 (sintOfLe 2 img))
    | .s32 => some (.s32 (sintOfLe 4 img))
    | .s64 => some (.s64 (sintOfLe 8 img))
    | .f32 => some (.f32 (leVal img))
    | .f64 => some (.f64 (leVal img))
    | .char =>
        let c := leVal img
        if c < 0xD800 ∨ (0xE000 ≤ c ∧ c < 0x110000) then some (.char c)
        else none
    | .string =>
        (match m.get? (leVal (img.take 4)) with
        | none => none
        | some region =>
          if region.length = leVal (img.drop 4) then some (.string region)
          else none)
    | .list t' =>
        (match m.get? (leVal (img.take 4)) with
        | none => none
        | some region =>
          if region.length = leVal (img.drop 4) * sizeF f t' then
            match liftSeq (liftF f) t'
              (takeChunks (leVal (img.drop 4)) (sizeF f t') region) m with
            | none => none
            | some vs => some (.list vs)
          else none)
    | .record fs =>
        (match liftFields (liftF f) (alignF f) (sizeF f) fs img 0 m with
        | none => none
        | some vs => some (.record vs))
    | .tuple fs =>
        (match liftFields (liftF f) (alignF f) (sizeF f) fs img 0 m with
        | none => none
        | some vs => some (.tuple vs))
    | .variant cs =>
        let ds := discSize cs.length
        let d := leVal (img.take ds)
        (match cs.get? d with
        | some none => some (.variant d none)
        | some (some t') =>
          (match liftF f t'
            ((img.drop (alignUp ds (alignCasesF f cs))).take (sizeF f t'))
            m with
          | none => none
          | some pv => some (.variant d (some pv)))
        | none => none)
    | .enum n =>
        let d := leVal (img.take (discSize n))
        if d < n then some (.enum d) else none
    | .flags n =>
        let v := leVal (img.take 4)
        if v < 2 ^ n then some (.flags (natToBits n v)) else none
    | .option t' =>
        (match img.head? with
        | none => none
        | some b =>
          if b = 0 then some .optNone
          else if b = 1 then
            match liftF f t'
              ((img.drop (alignUp 1 (alignF f t'))).take (sizeF f t')) m with
            | none => none
            | some pv => some (.optSome pv)
          else none)
    | .result t' e' =>
        (match img.head? with
        | none => none
        | some b =>
          if b = 0 then
            match liftF f t'
              ((img.drop (alignUp 1 (max (alignF f t') (alignF f e')))).take
                (sizeF f t')) m with
            | none => none
            | some pv => some (.ok pv)
          else if b = 1 then
            match liftF f e'
              ((img.drop (alignUp 1 (max (alignF f t') (alignF f e')))).take
                (sizeF f e')) m with
            | none => none
            | some pv => some (.err pv)
          else none)
    | .handle => some (.handle (leVal img))


end Abi

namespace TestReactor

/-- Auxiliary: the loop of `write_strings_to` stops at the first failed
write, returning the sink state accumulated so far and `Err(())`. -/
theorem writeLoop_error_at {σ : Type} (wr : WriteOp σ) :
    ∀ (i : Nat) (strs : List Str) (sink si : σ) (hi : i < strs.length),
      sinkAfter wr (strs.take i) sink = some si →
      wr si (strs.get ⟨i, hi⟩ ++ ['\n']) = none →
      writeLoop wr strs sink = (si, none) := by
  intro i
  induction i with
  | zero =>
    intro strs sink si hi hpre hfail
    match strs, hi with
    | s :: rest, _ =>
      simp [sinkAfter] at hpre
      subst hpre
      simp [List.get] at hfail
      simp [writeLoop, hfail]
  | succ i ih =>
    intro strs sink si hi hpre hfail
    match strs, hi with
    | s :: rest, hi =>
      simp only [List.length_cons] at hi
      simp [sinkAfter] at hpre
      match hw : wr sink (s ++ ['\n']) with
      | none => rw [hw] at hpre; simp at hpre
      | some sink₁ =>
        rw [hw] at hpre
        simp at hpre
        simp [List.get] at hfail
        have := ih rest sink₁ si (by omega) hpre hfail
        simp [writeLoop, hw, this]

/-- C1: starting from empty state, in any environment binding
`GOOD_DOG` to `gussie`, `add_strings(["hello", "$GOOD_DOG"])` returns
`2` and the resulting state returned by `get_strings()` is exactly
`["hello", "gussie"]`: the `$`-prefixed name is replaced by the
environment value. -/
theorem add_strings_env_interpolation (env : Env)
    (h : envVar env "GOOD_DOG".data = some "gussie".data) :
    add_strings env [] ["hello".data, "$GOOD_DOG".data]
      = (["hello".data, "gussie".data], 2) ∧
    get_strings (add_strings env [] ["hello".data, "$GOOD_DOG".data]).1
      = ["hello".data, "gussie".data] := by
  have h1 : split_once '$' "hello".data = none := by decide
  have h2 : split_once '$' "$GOOD_DOG".data = some ([], "GOOD_DOG".data) := by
    decide
  constructor <;> simp [add_strings, interpOne, h1, h2, h, get_strings]

/-- Witness for C1 at the demo environment seeded by the harness. -/
theorem add_strings_env_interpolation_witness :
    envVar demoEnv "GOOD_DOG".data = some "gussie".data ∧
    (add_strings demoEnv [] ["hello".data, "$GOOD_DOG".data]
      = (["hello".data, "gussie".data], 2) ∧
     get_strings (add_strings demoEnv [] ["hello".data, "$GOOD_DOG".data]).1
      = ["hello".data, "gussie".data]) :=
  ⟨by decide, add_strings_env_interpolation demoEnv (by decide)⟩

/-- C4: starting from empty state, in any environment with no binding
for `NOPE`, `add_strings(["$NOPE"])` returns `1` and `get_strings()`
returns exactly `["undefined"]`: an unresolvable `$`-prefixed name is
replaced by the literal string `"undefined"`. -/
theorem add_strings_missing_env_var (env : Env)
    (h : envVar env "NOPE".data = none) :
    add_strings env [] ["$NOPE".data] = (["undefined".data], 1) ∧
    get_strings (add_strings env [] ["$NOPE".data]).1 = ["undefined".data] := by
  have h2 : split_once '$' "$NOPE".data = some ([], "NOPE".data) := by decide
  constructor <;> simp [add_strings, interpOne, h2, h, get_strings]

/-- Witness for C4 at the empty environment. -/
theorem add_strings_missing_env_var_witness :
    envVar ([] : Env) "NOPE".data = none ∧
    (add_strings [] [] ["$NOPE".data] = (["undefined".data], 1) ∧
     get_strings (add_strings [] [] ["$NOPE".data]).1 = ["undefined".data]) :=
  ⟨by decide, add_strings_missing_env_var [] (by decide)⟩

/-- C5: starting from empty state, in every environment whatsoever,
`add_strings(["plain", "also$tail"])` returns `2` and `get_strings()`
returns exactly `["plain", "also$tail"]`: a string with no `$` and a
string whose first `$` has a non-empty prefix are stored unchanged,
independently of the environment. -/
theorem add_strings_literal_passthrough (env : Env) :
    add_strings env [] ["plain".data, "also$tail".data]
      = (["plain".data, "also$tail".data], 2) ∧
    get_strings (add_strings env [] ["plain".data, "also$tail".data]).1
      = ["plain".data, "also$tail".data] := by
  have h1 : split_once '$' "plain".data = none := by decide
  have h2 : split_once '$' "also$tail".data
      = some ("also".data, "tail".data) := by decide
  have h3 : "also".data ≠ ([] : List Char) := by decide
  constructor <;> simp [add_strings, interpOne, h1, h2, h3, get_strings]

/-- C6: `add_strings` returns the cumulative total `m + n` (the length
of the accumulated state after appending, truncated to a `u32`, which
does not change it below `2^32`), not the per-call count `n`; when the
prior state is non-empty the return value strictly exceeds the length
of the argument list. -/
theorem add_strings_returns_cumulative_total (env : Env)
    (state ss : List Str) (h : state.length + ss.length < 2 ^ 32) :
    (add_strings env state ss).2 = state.length + ss.length ∧
    (0 < state.length → ss.length < (add_strings env state ss).2) := by
  have hlen : (state ++ ss.map (interpOne env)).length
      = state.length + ss.length := by simp
  have h2 : (add_strings env state ss).2 = state.length + ss.length := by
    simp only [add_strings, hlen]
    exact Nat.mod_eq_of_lt h
  exact ⟨h2, fun hm => by omega⟩

/-- Witness for C6: a second call on a one-element state returns `2`,
exceeding the single argument passed. -/
theorem add_strings_returns_cumulative_total_witness :
    (["a".data] : List Str).length + (["b".data] : List Str).length < 2 ^ 32 ∧
    ((add_strings [] ["a".data] ["b".data]).2
        = (["a".data] : List Str).length + (["b".data] : List Str).length ∧
     (0 < (["a".data] : List Str).length →
        (["b".data] : List Str).length < (add_strings [] ["a".data] ["b".data]).2)) :=
  ⟨by norm_num,
   add_strings_returns_cumulative_total [] ["a".data] ["b".data] (by norm_num)⟩

/-- C3: with the accumulated state `["hello", "gussie"]`,
`write_strings_to` on a fresh in-memory sink succeeds, leaves the state
unchanged, and the sink contains exactly the bytes `"hello\ngussie\n"`:
each stored string followed by a single newline, in storage order. -/
theorem write_strings_to_memory_sink :
    write_strings_to memWrite ["hello".data, "gussie".data] []
      = (["hello".data, "gussie".data], "hello\ngussie\n".data, some ()) := by
  decide

/-- C2 counterexample: the byte-exact assertion of
`demo_memory_output_stream` does not hold of the code: on the state
`["hello", "gussie"]` the sink does not contain `"hellogussie"`, and it
does contain newline bytes. -/
theorem memory_sink_hellogussie_fails :
    ¬ ((write_strings_to memWrite ["hello".data, "gussie".data] []).2.1
        = "hellogussie".data ∧
       '\n' ∉ (write_strings_to memWrite ["hello".data, "gussie".data] []).2.1) := by
  decide

/-- C2 amended: `write_strings_to` on a fresh in-memory sink succeeds
with `Ok(())`, but the sink then contains the bytes `"hello\ngussie\n"`
(a newline after each string), so the assertion
`writepipe.contents() == b"hellogussie"` in `demo_memory_output_stream`
would fail. -/
theorem memory_sink_actual_contents :
    (write_strings_to memWrite ["hello".data, "gussie".data] []).2.2 = some () ∧
    (write_strings_to memWrite ["hello".data, "gussie".data] []).2.1
      = "hello\ngussie\n".data ∧
    (write_strings_to memWrite ["hello".data, "gussie".data] []).2.1
      ≠ "hellogussie".data := by
  decide

/-- C8: a reader that frames the written bytes on newlines observes,
after `write_strings_to` completes on state `["hello", "gussie"]`,
exactly the frames `"hello"` then `"gussie"` in that order, and at
end-of-stream no further non-empty frame (the pending buffer is empty). -/
theorem async_reader_newline_frames :
    (write_strings_to memWrite ["hello".data, "gussie".data] []).2.2 = some () ∧
    frames (write_strings_to memWrite ["hello".data, "gussie".data] []).2.1
      = (["hello".data, "gussie".data], []) := by
  decide

/-- C10: if the writes of the first `i` stored strings succeed
(reaching sink state `si`) and the write of the `i`-th fails, then
`write_strings_to` returns `Err(())` with the sink left at `si` — every
earlier string already written, each followed by a newline, and nothing
at index `i` or later written — and the accumulated string state is
returned unchanged; on any other stream (e.g. one that succeeds) the
state is likewise unchanged. -/
theorem write_strings_to_error_prefix {σ τ : Type} (wr : WriteOp σ)
    (wr2 : WriteOp τ) (strs : List Str) (sink si : σ) (sink2 : τ)
    (i : Nat) (hi : i < strs.length)
    (hpre : sinkAfter wr (strs.take i) sink = some si)
    (hfail : wr si (strs.get ⟨i, hi⟩ ++ ['\n']) = none) :
    write_strings_to wr strs sink = (strs, si, none) ∧
    (write_strings_to wr2 strs sink2).1 = strs := by
  have hl := writeLoop_error_at wr i strs sink si hi hpre hfail
  exact ⟨by simp [write_strings_to, get_strings, hl], rfl⟩

/-- Witness for C10: on a capacity-6 sink, the write of `"hello\n"`
succeeds and the write of `"gussie\n"` fails, so the call returns the
sink holding `"hello\n"` and `Err(())`; on the unbounded memory sink
the state is unchanged. -/
theorem write_strings_to_error_prefix_witness :
    (1 < (["hello".data, "gussie".data] : List Str).length) ∧
    (write_strings_to cappedWrite ["hello".data, "gussie".data] []
        = (["hello".data, "gussie".data], "hello\n".data, none) ∧
     (write_strings_to memWrite ["hello".data, "gussie".data] []).1
        = ["hello".data, "gussie".data]) :=
  ⟨by decide,
   write_strings_to_error_prefix cappedWrite memWrite
     ["hello".data, "gussie".data] [] "hello\n".data [] 1
     (by decide) (by decide) (by decide)⟩


/-- `digitChar` always yields a decimal digit character. -/
theorem digitChar_isDigit : ∀ d, (digitChar d).isDigit = true
  | 0 | 1 | 2 | 3 | 4 | 5 | 6 | 7 | 8 => rfl
  | _ + 9 => rfl

/-- The numeric value of a digit character below ten. -/
theorem digitChar_val : ∀ d, d < 10 → (digitChar d).toNat - 48 = d := by
  decide

/-- Any sufficient fuel computes the same digits. -/
theorem decGo_congr : ∀ (n f f' : Nat) (acc : List Char), n < f → n < f' →
    decGo f n acc = decGo f' n acc := by
  intro n
  induction n using Nat.strong_induction_on with
  | _ n ih =>
    intro f f' acc hf hf'
    match f, hf, f', hf' with
    | g + 1, hf, g' + 1, hf' =>
      by_cases h10 : n < 10
      · simp [decGo, h10]
      · have hlt : n / 10 < n := Nat.div_lt_self (by omega) (by omega)
        simp only [decGo, if_neg h10]
        exact ih (n / 10) hlt g g' _ (by omega) (by omega)

/-- The accumulator of `decGo` is a suffix of the result. -/
theorem decGo_append : ∀ (n f : Nat) (acc : List Char), n < f →
    decGo f n acc = decGo f n [] ++ acc := by
  intro n
  induction n using Nat.strong_induction_on with
  | _ n ih =>
    intro f acc hf
    match f, hf with
    | g + 1, hf =>
      by_cases h10 : n < 10
      · simp [decGo, h10]
      · have hlt : n / 10 < n := Nat.div_lt_self (by omega) (by omega)
        simp only [decGo, if_neg h10]
        rw [ih (n / 10) hlt g _ (by omega),
          ih (n / 10) hlt g [digitChar (n % 10)] (by omega)]
        simp

/-- The defining unfolding of `dec`. -/
theorem dec_eq (n : Nat) :
    dec n = if n < 10 then [digitChar n]
            else dec (n / 10) ++ [digitChar (n % 10)] := by
  by_cases h10 : n < 10
  · simp [dec, decGo, h10]
  · rw [if_neg h10]
    have hlt : n / 10 < n := Nat.div_lt_self (by omega) (by omega)
    rw [show dec n = decGo n (n / 10) [digitChar (n % 10)] by
          simp [dec, decGo, h10]]
    rw [decGo_append (n / 10) n _ (by omega),
        decGo_congr (n / 10) n (n / 10 + 1) [] (by omega) (by omega)]
    rfl

/-- Folding the base-ten evaluation function over `dec n` recovers `n`
(with the accumulator scaled by ten to the number of digits). -/
theorem foldl_dec_eq (n : Nat) :
    ∀ acc, List.foldl (fun a c => a * 10 + (c.toNat - 48)) acc (dec n)
      = acc * 10 ^ (dec n).length + n := by
  induction n using Nat.strong_induction_on with
  | _ n ih =>
    intro acc
    rw [dec_eq]
    by_cases h10 : n < 10
    · rw [if_pos h10]
      simp only [List.foldl_cons, List.foldl_nil, List.length_cons,
        List.length_nil]
      rw [digitChar_val n h10]
      ring
    · rw [if_neg h10]
      have hlt : n / 10 < n := Nat.div_lt_self (by omega) (by omega)
      rw [List.foldl_append, ih (n / 10) hlt]
      simp only [List.foldl_cons, List.foldl_nil, List.length_append,
        List.length_cons, List.length_nil]
      rw [digitChar_val _ (Nat.mod_lt _ (by omega))]
      have hdm : n / 10 * 10 + n % 10 = n := by omega
      calc (acc * 10 ^ (dec (n / 10)).length + n / 10) * 10 + n % 10
          = acc * (10 ^ (dec (n / 10)).length * 10)
              + (n / 10 * 10 + n % 10) := by ring
        _ = acc * 10 ^ ((dec (n / 10)).length + (0 + 1)) + n := by
            rw [hdm]
            ring

/-- Decimal rendering is injective. -/
theorem dec_inj {m n : Nat} (h : dec m = dec n) : m = n := by
  have h1 := foldl_dec_eq m 0
  have h2 := foldl_dec_eq n 0
  rw [h] at h1
  omega

/-- Every character of a decimal rendering is a digit. -/
theorem dec_digits {n : Nat} : ∀ c ∈ dec n, c.isDigit = true := by
  induction n using Nat.strong_induction_on with
  | _ n ih =>
    intro c hc
    rw [dec_eq] at hc
    by_cases h10 : n < 10
    · rw [if_pos h10] at hc
      simp at hc
      subst hc
      exact digitChar_isDigit n
    · rw [if_neg h10] at hc
      have hlt : n / 10 < n := Nat.div_lt_self (by omega) (by omega)
      rcases List.mem_append.mp hc with h1 | h1
      · exact ih (n / 10) hlt c h1
      · simp at h1
        subst h1
        exact digitChar_isDigit _

/-- Cancellation around a separator character: if `c` occurs in neither
`a` nor `b`, the parts on each side of its first occurrence agree. -/
theorem sep_cancel {c : Char} :
    ∀ (a b x y : List Char), c ∉ a → c ∉ b →
      a ++ c :: x = b ++ c :: y → a = b ∧ x = y := by
  intro a
  induction a with
  | nil =>
    intro b x y _ hb h
    cases b with
    | nil => simpa using h
    | cons e b' =>
      simp only [List.nil_append, List.cons_append, List.cons.injEq] at h
      obtain ⟨rfl, -⟩ := h
      exact absurd (List.mem_cons_self _ _) hb
  | cons d a' ih =>
    intro b x y ha hb h
    cases b with
    | nil =>
      simp only [List.cons_append, List.nil_append, List.cons.injEq] at h
      obtain ⟨rfl, -⟩ := h
      exact absurd (List.mem_cons_self _ _) ha
    | cons e b' =>
      simp only [List.cons_append, List.cons.injEq] at h
      obtain ⟨rfl, h2⟩ := h
      have ha' : c ∉ a' := fun hm => ha (List.mem_cons_of_mem _ hm)
      have hb' : c ∉ b' := fun hm => hb (List.mem_cons_of_mem _ hm)
      obtain ⟨h3, h4⟩ := ih b' x y ha' hb' h2
      exact ⟨by rw [h3], h4⟩

/-- A non-digit character never occurs in a decimal rendering. -/
theorem dec_notMem {c : Char} (hc : c.isDigit = false) (n : Nat) :
    c ∉ dec n := fun hm => by
  rw [dec_digits c hm] at hc
  exact absurd hc (by simp)

/-- Cancellation of two decimal renderings followed by the same
non-digit separator. -/
theorem dec_sep_cancel {c : Char} (hc : c.isDigit = false) {m n : Nat}
    {x y : List Char} (h : dec m ++ c :: x = dec n ++ c :: y) :
    m = n ∧ x = y := by
  obtain ⟨h1, h2⟩ := sep_cancel _ _ _ _ (dec_notMem hc m) (dec_notMem hc n) h
  exact ⟨dec_inj h1, h2⟩

/-- The `Debug` variant names of `DescriptorType` are pairwise
distinct. -/
theorem typeName_inj : ∀ t t' : DescriptorType,
    typeName t = typeName t' → t = t' := by
  intro t t' h
  cases t <;> cases t' <;> first
    | rfl
    | exact absurd h (by decide)

/-- No `DescriptorType` variant name contains a comma. -/
theorem comma_notMem_typeName : ∀ t : DescriptorType, ',' ∉ typeName t := by
  intro t
  cases t <;> decide

/-- Cancellation of two variant names followed by a comma. -/
theorem typeName_sep_cancel {t t' : DescriptorType} {x y : List Char}
    (h : typeName t ++ ',' :: x = typeName t' ++ ',' :: y) :
    t = t' ∧ x = y := by
  obtain ⟨h1, h2⟩ := sep_cancel _ _ _ _ (comma_notMem_typeName t)
    (comma_notMem_typeName t') h
  exact ⟨typeName_inj t t' h1, h2⟩

set_option maxRecDepth 4000 in
/-- The `Debug` rendering of `DescriptorStat` is injective: the string
determines every field. -/
theorem debugDescriptorStat_inj (s1 s2 : DescriptorStat)
    (h : debugDescriptorStat s1 = debugDescriptorStat s2) : s1 = s2 := by
  obtain ⟨d1, i1, t1, l1, z1, ⟨as1, an1⟩, ⟨ms1, mn1⟩, ⟨cs1, cn1⟩⟩ := s1
  obtain ⟨d2, i2, t2, l2, z2, ⟨as2, an2⟩, ⟨ms2, mn2⟩, ⟨cs2, cn2⟩⟩ := s2
  simp only [debugDescriptorStat, debugDatetime, List.append_assoc,
    List.cons_append, List.nil_append] at h
  simp only [List.cons.injEq, eq_self_iff_true, true_and] at h
  obtain ⟨hd, h⟩ := dec_sep_cancel (by decide) h
  simp only [List.cons.injEq, eq_self_iff_true, true_and] at h
  obtain ⟨hi, h⟩ := dec_sep_cancel (by decide) h
  simp only [List.cons.injEq, eq_self_iff_true, true_and] at h
  obtain ⟨ht, h⟩ := typeName_sep_cancel h
  simp only [List.cons.injEq, eq_self_iff_true, true_and] at h
  obtain ⟨hl, h⟩ := dec_sep_cancel (by decide) h
  simp only [List.cons.injEq, eq_self_iff_true, true_and] at h
  obtain ⟨hz, h⟩ := dec_sep_cancel (by decide) h
  simp only [List.cons.injEq, eq_self_iff_true, true_and] at h
  obtain ⟨has, h⟩ := dec_sep_cancel (by decide) h
  simp only [List.cons.injEq, eq_self_iff_true, true_and] at h
  obtain ⟨han, h⟩ := dec_sep_cancel (by decide) h
  simp only [List.cons.injEq, eq_self_iff_true, true_and] at h
  obtain ⟨hms, h⟩ := dec_sep_cancel (by decide) h
  simp only [List.cons.injEq, eq_self_iff_true, true_and] at h
  obtain ⟨hmn, h⟩ := dec_sep_cancel (by decide) h
  simp only [List.cons.injEq, eq_self_iff_true, true_and] at h
  obtain ⟨hcs, h⟩ := dec_sep_cancel (by decide) h
  simp only [List.cons.injEq, eq_self_iff_true, true_and] at h
  obtain ⟨hcn, h⟩ := dec_sep_cancel (by decide) h
  cases hd; cases hi; cases ht; cases hl; cases hz
  cases has; cases han; cases hms; cases hmn; cases hcs; cases hcn
  rfl

/-- C7: `pass_an_imported_record` is injective on `DescriptorStat`
values — the returned string uniquely determines every field of the
input record, so distinct records yield distinct strings — and the
returned string equals the host-side canonical rendering of the same
record computed by `demo_wasi_structures`. -/
theorem pass_an_imported_record_bijective (s1 s2 : DescriptorStat)
    (h : pass_an_imported_record s1 = pass_an_imported_record s2) :
    s1 = s2 ∧ pass_an_imported_record s1 = hostExpectedRendering s1 :=
  ⟨debugDescriptorStat_inj s1 s2 h, rfl⟩

/-- Witness for C7 at the fully-populated record the demo builds. -/
theorem pass_an_imported_record_bijective_witness :
    pass_an_imported_record demoStat = pass_an_imported_record demoStat ∧
    (demoStat = demoStat ∧
     pass_an_imported_record demoStat = hostExpectedRendering demoStat) :=
  ⟨rfl, pass_an_imported_record_bijective demoStat demoStat rfl⟩

end TestReactor

namespace Abi

theorem leBytes_length : ∀ w n, (leBytes w n).length = w := by
  intro w
  induction w with
  | zero => intro n; rfl
  | succ w ih => intro n; simp [leBytes, ih]

theorem leVal_leBytes : ∀ w n, n < 256 ^ w → leVal (leBytes w n) = n := by
  intro w
  induction w with
  | zero =>
    intro n h
    interval_cases n
    rfl
  | succ w ih =>
    intro n h
    have hdiv : n / 256 < 256 ^ w := by
      rw [Nat.div_lt_iff_lt_mul (by omega)]
      calc n < 256 ^ (w + 1) := h
        _ = 256 ^ w * 256 := by rw [pow_succ]
    simp only [leBytes, leVal, List.foldr_cons]
    have := ih (n / 256) hdiv
    simp only [leVal] at this
    rw [this]
    omega

theorem natToBits_bitsToNat : ∀ (bits : List Bool),
    natToBits bits.length (bitsToNat bits) = bits := by
  intro bits
  induction bits with
  | nil => rfl
  | cons b bs ih =>
    simp only [List.length_cons, natToBits, bitsToNat, List.foldr_cons,
      List.cons.injEq]
    refine ⟨?_, ?_⟩
    · cases b <;> simp [bitsToNat] <;> omega
    · have h2 : ((if b then 1 else 0) + 2 * bitsToNat bs) / 2 = bitsToNat bs := by
        cases b <;> simp [bitsToNat] <;> omega
      simp only [bitsToNat] at h2
      rw [h2]
      exact ih

theorem bitsToNat_lt : ∀ bits : List Bool, bitsToNat bits < 2 ^ bits.length := by
  intro bits
  induction bits with
  | nil => simp [bitsToNat]
  | cons b bs ih =>
    simp only [bitsToNat, List.foldr_cons, List.length_cons]
    have : (if b then 1 else 0) ≤ 1 := by cases b <;> simp
    rw [pow_succ]
    simp only [bitsToNat] at ih
    omega

theorem le_alignUp (off a : Nat) : off ≤ alignUp off a :=
  Nat.le_add_right _ _

theorem sintOfLe_leBytes (w : Nat) (hw : 0 < w) (i : Int)
    (hlo : -(2 ^ (8 * w - 1) : Int) ≤ i) (hhi : i < 2 ^ (8 * w - 1)) :
    sintOfLe w (leBytes w (i % (2 ^ (8 * w))).toNat) = i := by
  have hsplit : (2 : Int) ^ (8 * w) = 2 ^ (8 * w - 1) * 2 := by
    rw [← pow_succ]
    congr 1
    omega
  have hcast : ((256 : Nat) ^ w : Int) = 2 ^ (8 * w) := by
    push_cast
    rw [show ((256 : Int) = 2 ^ 8) by norm_num, ← pow_mul]
  have hcast2 : ((2 : Nat) ^ (8 * w - 1) : Int) = (2 : Int) ^ (8 * w - 1) := by
    push_cast
    ring
  by_cases hc : 0 ≤ i
  · have hmod : i % (2 ^ (8 * w)) = i := Int.emod_eq_of_lt hc (by omega)
    have hlt256 : (i % (2 ^ (8 * w))).toNat < 256 ^ w := by omega
    unfold sintOfLe
    rw [leVal_leBytes w _ hlt256]
    rw [if_pos (by omega)]
    omega
  · have h1 : (i + 2 ^ (8 * w) * 1) % (2 ^ (8 * w)) = i % (2 ^ (8 * w)) :=
      Int.add_mul_emod_self_left _ _ _
    rw [mul_one] at h1
    have hmod : i % (2 ^ (8 * w)) = i + 2 ^ (8 * w) := by
      rw [← h1]
      exact Int.emod_eq_of_lt (by omega) (by omega)
    have hlt256 : (i % (2 ^ (8 * w))).toNat < 256 ^ w := by omega
    unfold sintOfLe
    rw [leVal_leBytes w _ hlt256]
    rw [if_neg (by omega)]
    omega

/-- A region present in a memory stays at its index when the arena is
extended. -/
theorem get?_stable {α : Type} {l₁ l₂ : List α} {n : Nat} {x : α}
    (hp : l₁ <+: l₂) (h : l₁.get? n = some x) : l₂.get? n = some x := by
  obtain ⟨ts, rfl⟩ := hp
  obtain ⟨hlt, -⟩ := List.get?_eq_some.mp h
  rw [List.get?_append hlt]
  exact h

/-- Lifting a sequence is stable under arena extension. -/
theorem liftSeq_mono {lif : Ty → List Byte → Mem → Option Val}
    (hm : ∀ t img m m' v, lif t img m = some v → m <+: m' →
      lif t img m' = some v) (t : Ty) :
    ∀ (imgs : List (List Byte)) (m m' : Mem) (vs : List Val),
      liftSeq lif t imgs m = some vs → m <+: m' →
      liftSeq lif t imgs m' = some vs := by
  intro imgs
  induction imgs with
  | nil => intro m m' vs h hp; exact h
  | cons img imgs ih =>
    intro m m' vs h hp
    simp only [liftSeq] at h ⊢
    cases hl : lif t img m with
    | none => rw [hl] at h; exact absurd h (by simp)
    | some v =>
      rw [hl] at h
      cases hs : liftSeq lif t imgs m with
      | none => rw [hs] at h; exact absurd h (by simp)
      | some vs₂ =>
        rw [hs] at h
        rw [hm t img m m' v hl hp, ih m m' vs₂ hs hp]
        exact h

/-- Lifting record fields is stable under arena extension. -/
theorem liftFields_mono {lif : Ty → List Byte → Mem → Option Val}
    (hm : ∀ t img m m' v, lif t img m = some v → m <+: m' →
      lif t img m' = some v) (al sz : Ty → Nat) :
    ∀ (ts : List Ty) (bytes : List Byte) (off : Nat) (m m' : Mem)
      (vs : List Val),
      liftFields lif al sz ts bytes off m = some vs → m <+: m' →
      liftFields lif al sz ts bytes off m' = some vs := by
  intro ts
  induction ts with
  | nil => intro bytes off m m' vs h hp; exact h
  | cons t ts ih =>
    intro bytes off m m' vs h hp
    simp only [liftFields] at h ⊢
    cases hl : lif t ((bytes.drop (alignUp off (al t) - off)).take (sz t)) m with
    | none => rw [hl] at h; exact absurd h (by simp)
    | some v =>
      rw [hl] at h
      cases hs : liftFields lif al sz ts
          (bytes.drop ((alignUp off (al t) - off) + sz t))
          (alignUp off (al t) + sz t) m with
      | none => rw [hs] at h; exact absurd h (by simp)
      | some vs₂ =>
        rw [hs] at h
        rw [hm t _ m m' v hl hp, ih _ _ m m' vs₂ hs hp]
        exact h

/-- Lifting is stable under arena extension: a lifted value only reads
regions that are already allocated. -/
theorem liftF_mono : ∀ (f : Nat) (t : Ty) (img : List Byte) (m m' : Mem)
    (v : Val), liftF f t img m = some v → m <+: m' →
    liftF f t img m' = some v := by
  intro f
  induction f with
  | zero => intro t img m m' v h hp; exact absurd h (by simp [liftF])
  | succ f ih =>
    intro t img m m' v h hp
    cases t with
    | bool => exact h
    | u8 => exact h
    | u16 => exact h
    | u32 => exact h
    | u64 => exact h
    | s8 => exact h
    | s16 => exact h
    | s32 => exact h
    | s64 => exact h
    | f32 => exact h
    | f64 => exact h
    | char => exact h
    | enum n => exact h
    | flags n => exact h
    | handle => exact h
    | string =>
      simp only [liftF] at h ⊢
      cases hr : m.get? (leVal (img.take 4)) with
      | none => rw [hr] at h; exact absurd h (by simp)
      | some region =>
        rw [hr] at h
        rw [get?_stable hp hr]
        exact h
    | list t' =>
      simp only [liftF] at h ⊢
      cases hr : m.get? (leVal (img.take 4)) with
      | none => rw [hr] at h; exact absurd h (by simp)
      | some region =>
        rw [hr] at h
        rw [get?_stable hp hr]
        dsimp only at h ⊢
        by_cases hlen : region.length = leVal (img.drop 4) * sizeF f t'
        · rw [if_pos hlen] at h ⊢
          cases hs : liftSeq (liftF f) t'
              (takeChunks (leVal (img.drop 4)) (sizeF f t') region) m with
          | none => rw [hs] at h; exact absurd h (by simp)
          | some vs =>
            rw [hs] at h
            rw [liftSeq_mono (fun a b c d e h1 h2 => ih a b c d e h1 h2)
              t' _ m m' vs hs hp]
            exact h
        · rw [if_neg hlen] at h
          exact absurd h (by simp)
    | record fs =>
      simp only [liftF] at h ⊢
      cases hs : liftFields (liftF f) (alignF f) (sizeF f) fs img 0 m with
      | none => rw [hs] at h; exact absurd h (by simp)
      | some vs =>
        rw [hs] at h
        rw [liftFields_mono (fun a b c d e h1 h2 => ih a b c d e h1 h2)
          _ _ fs img 0 m m' vs hs hp]
        exact h
    | tuple fs =>
      simp only [liftF] at h ⊢
      cases hs : liftFields (liftF f) (alignF f) (sizeF f) fs img 0 m with
      | none => rw [hs] at h; exact absurd h (by simp)
      | some vs =>
        rw [hs] at h
        rw [liftFields_mono (fun a b c d e h1 h2 => ih a b c d e h1 h2)
          _ _ fs img 0 m m' vs hs hp]
        exact h
    | variant cs =>
      simp only [liftF] at h ⊢
      cases hc : cs.get? (leVal (img.take (discSize cs.length))) with
      | none => rw [hc] at h; exact absurd h (by simp)
      | some c =>
        rw [hc] at h
        cases c with
        | none => exact h
        | some t' =>
          dsimp only at h ⊢
          cases hpv : liftF f t'
              ((img.drop (alignUp (discSize cs.length) (alignCasesF f cs))).take
                (sizeF f t')) m with
          | none => rw [hpv] at h; exact absurd h (by simp)
          | some pv =>
            rw [hpv] at h
            rw [ih _ _ m m' pv hpv hp]
            exact h
    | option t' =>
      simp only [liftF] at h ⊢
      cases hb : img.head? with
      | none => rw [hb] at h; exact absurd h (by simp)
      | some b =>
        rw [hb] at h
        dsimp only at h ⊢
        by_cases hb0 : b = 0
        · rw [if_pos hb0] at h ⊢; exact h
        · rw [if_neg hb0] at h ⊢
          by_cases hb1 : b = 1
          · rw [if_pos hb1] at h ⊢
            cases hpv : liftF f t'
                ((img.drop (alignUp 1 (alignF f t'))).take (sizeF f t')) m with
            | none => rw [hpv] at h; exact absurd h (by simp)
            | some pv =>
              rw [hpv] at h
              rw [ih _ _ m m' pv hpv hp]
              exact h
          · rw [if_neg hb1] at h
            exact absurd h (by simp)
    | result t' e' =>
      simp only [liftF] at h ⊢
      cases hb : img.head? with
      | none => rw [hb] at h; exact absurd h (by simp)
      | some b =>
        rw [hb] at h
        dsimp only at h ⊢
        by_cases hb0 : b = 0
        · rw [if_pos hb0] at h ⊢
          cases hpv : liftF f t'
              ((img.drop (alignUp 1 (max (alignF f t') (alignF f e')))).take
                (sizeF f t')) m with
          | none => rw [hpv] at h; exact absurd h (by simp)
          | some pv =>
            rw [hpv] at h
            rw [ih _ _ m m' pv hpv hp]
            exact h
        · rw [if_neg hb0] at h ⊢
          by_cases hb1 : b = 1
          · rw [if_pos hb1] at h ⊢
            cases hpv : liftF f e'
                ((img.drop (alignUp 1 (max (alignF f t') (alignF f e')))).take
                  (sizeF f e')) m with
            | none => rw [hpv] at h; exact absurd h (by simp)
            | some pv =>
              rw [hpv] at h
              rw [ih _ _ m m' pv hpv hp]
              exact h
          · rw [if_neg hb1] at h
            exact absurd h (by simp)

theorem take_len_append {α : Type} {l₁ l₂ : List α} {n : Nat}
    (h : l₁.length = n) : (l₁ ++ l₂).take n = l₁ := by
  rw [← h, List.take_left]

theorem drop_len_append {α : Type} {l₁ l₂ : List α} {n : Nat}
    (h : l₁.length = n) : (l₁ ++ l₂).drop n = l₂ := by
  rw [← h, List.drop_left]

/-- The flattening of equally-sized chunks has length count times
size. -/
theorem flatten_length_const {k : Nat} : ∀ (imgs : List (List Byte)),
    (∀ img ∈ imgs, img.length = k) →
    imgs.flatten.length = imgs.length * k := by
  intro imgs
  induction imgs with
  | nil => intro _; simp
  | cons i is ih =>
    intro h
    simp only [List.flatten_cons, List.length_append, List.length_cons]
    rw [ih (fun img hm => h img (List.mem_cons_of_mem _ hm)),
      h i (List.mem_cons_self _ _)]
    ring

/-- Chunking the flattening of equally-sized chunks recovers them. -/
theorem takeChunks_flatten {k : Nat} : ∀ (imgs : List (List Byte)),
    (∀ img ∈ imgs, img.length = k) →
    takeChunks imgs.length k imgs.flatten = imgs := by
  intro imgs
  induction imgs with
  | nil => intro _; rfl
  | cons i is ih =>
    intro h
    simp only [List.length_cons, takeChunks, List.flatten_cons]
    rw [take_len_append (h i (List.mem_cons_self _ _)),
      drop_len_append (h i (List.mem_cons_self _ _)),
      ih (fun img hm => h img (List.mem_cons_of_mem _ hm))]

/-- Properties of lowering a sequence of elements, given the combined
induction hypothesis for single values: the arena only grows, every
image has the element size, and lifting the images from any extension
of the final arena recovers the values. -/
theorem lowerSeq_spec {low : Ty → Val → Mem → Option (List Byte × Mem)}
    {lif : Ty → List Byte → Mem → Option Val} {sz : Ty → Nat} {t : Ty}
    (hlow : ∀ v m img m', low t v m = some (img, m') →
      m <+: m' ∧ img.length = sz t ∧ lif t img m' = some v)
    (hmono : ∀ img m m' v, lif t img m = some v → m <+: m' →
      lif t img m' = some v) :
    ∀ (vs : List Val) (m : Mem) (imgs : List (List Byte)) (m₂ : Mem),
      lowerSeq low t vs m = some (imgs, m₂) →
      m <+: m₂ ∧ (∀ img ∈ imgs, img.length = sz t) ∧
      imgs.length = vs.length ∧
      (∀ mf, m₂ <+: mf → liftSeq lif t imgs mf = some vs) := by
  intro vs
  induction vs with
  | nil =>
    intro m imgs m₂ h
    simp only [lowerSeq, Option.some.injEq, Prod.mk.injEq] at h
    obtain ⟨rfl, rfl⟩ := h
    exact ⟨List.prefix_refl _, by simp, rfl, fun mf _ => rfl⟩
  | cons v vs ih =>
    intro m imgs m₂ h
    simp only [lowerSeq] at h
    cases hl : low t v m with
    | none => rw [hl] at h; exact absurd h (by simp)
    | some r =>
      obtain ⟨img, m₁⟩ := r
      rw [hl] at h
      dsimp only at h
      cases hs : lowerSeq low t vs m₁ with
      | none => rw [hs] at h; exact absurd h (by simp)
      | some r₂ =>
        obtain ⟨imgs₂, m₃⟩ := r₂
        rw [hs] at h
        dsimp only at h
        obtain ⟨rfl, rfl⟩ : img :: imgs₂ = imgs ∧ m₃ = m₂ := by
          simpa using h
        obtain ⟨hpre1, hlen1, hlift1⟩ := hlow v m img m₁ hl
        obtain ⟨hpre2, hlen2, hcnt2, hlift2⟩ := ih m₁ imgs₂ _ hs
        refine ⟨hpre1.trans hpre2, ?_, by simp [hcnt2], ?_⟩
        · intro i hi
          rcases List.mem_cons.mp hi with rfl | hi
          · exact hlen1
          · exact hlen2 i hi
        · intro mf hmf
          simp only [liftSeq]
          rw [hmono img m₁ mf v hlift1 (hpre2.trans hmf), hlift2 mf hmf]

/-- Properties of lowering record fields, given the combined induction
hypothesis: the arena only grows, the body length accounts exactly for
the offset advance, and lifting the fields back from the body (with any
trailing bytes appended, from any extension of the final arena)
recovers the values. -/
theorem lowerFields_spec {low : Ty → Val → Mem → Option (List Byte × Mem)}
    {lif : Ty → List Byte → Mem → Option Val} {al sz : Ty → Nat}
    (hlow : ∀ t v m img m', low t v m = some (img, m') →
      m <+: m' ∧ img.length = sz t ∧ lif t img m' = some v)
    (hmono : ∀ t img m m' v, lif t img m = some v → m <+: m' →
      lif t img m' = some v) :
    ∀ (ts : List Ty) (vs : List Val) (off : Nat) (m : Mem)
      (body : List Byte) (off₂ : Nat) (m₂ : Mem),
      lowerFields low al ts vs off m = some (body, off₂, m₂) →
      m <+: m₂ ∧ off ≤ off₂ ∧ body.length + off = off₂ ∧
      off₂ = offEndW sz al ts off ∧
      (∀ mf, m₂ <+: mf → ∀ tail,
        liftFields lif al sz ts (body ++ tail) off mf = some vs) := by
  intro ts
  induction ts with
  | nil =>
    intro vs off m body off₂ m₂ h
    cases vs with
    | nil =>
      simp only [lowerFields, Option.some.injEq, Prod.mk.injEq] at h
      obtain ⟨rfl, rfl, rfl⟩ := h
      exact ⟨List.prefix_refl _, le_rfl, by simp, rfl, fun mf _ tail => rfl⟩
    | cons v vs => exact absurd h (by simp [lowerFields])
  | cons t ts ih =>
    intro vs off m body off₂ m₂ h
    cases vs with
    | nil => exact absurd h (by simp [lowerFields])
    | cons v vs =>
      simp only [lowerFields] at h
      cases hl : low t v m with
      | none => rw [hl] at h; exact absurd h (by simp)
      | some r =>
        obtain ⟨img, m₁⟩ := r
        rw [hl] at h
        dsimp only at h
        cases hs : lowerFields low al ts vs (alignUp off (al t) + img.length)
            m₁ with
        | none => rw [hs] at h; exact absurd h (by simp)
        | some r₂ =>
          obtain ⟨rest, off₃, m₃⟩ := r₂
          rw [hs] at h
          dsimp only at h
          obtain ⟨rfl, rfl, rfl⟩ :
              List.replicate (alignUp off (al t) - off) 0 ++ img ++ rest
                = body ∧ off₃ = off₂ ∧ m₃ = m₂ := by
            simpa using h
          obtain ⟨hpre1, hlen1, hlift1⟩ := hlow t v m img m₁ hl
          obtain ⟨hpre2, hle2, hlen2, hend2, hlift2⟩ := ih vs _ m₁ rest _ _ hs
          have hoff : off ≤ alignUp off (al t) := le_alignUp off (al t)
          refine ⟨hpre1.trans hpre2, by omega, ?_, ?_, ?_⟩
          · simp only [List.length_append, List.length_replicate]
            omega
          · show _ = offEndW sz al (t :: ts) off
            have hstep : offEndW sz al (t :: ts) off
                = offEndW sz al ts (alignUp off (al t) + sz t) := rfl
            rw [hstep, ← hlen1]
            exact hend2
          · intro mf hmf tail
            simp only [liftFields]
            have hdrop1 : ((List.replicate (alignUp off (al t) - off) 0 ++ img
                ++ rest) ++ tail).drop (alignUp off (al t) - off)
                = img ++ (rest ++ tail) := by
              rw [List.append_assoc, List.append_assoc]
              exact drop_len_append (by simp)
            have htake : (img ++ (rest ++ tail)).take (sz t) = img :=
              take_len_append hlen1
            have hdrop2 : ((List.replicate (alignUp off (al t) - off) 0 ++ img
                ++ rest) ++ tail).drop ((alignUp off (al t) - off) + sz t)
                = rest ++ tail := by
              rw [← List.drop_drop, hdrop1]
              exact drop_len_append hlen1
            rw [hdrop1, htake, hdrop2]
            rw [hmono t img m₁ mf v hlift1 (hpre2.trans hmf)]
            dsimp only
            rw [← hlen1, hlift2 mf hmf tail]

/-- The initial accumulator bounds a `foldl max`. -/
theorem init_le_foldl_max : ∀ (l : List Nat) (b : Nat), b ≤ l.foldl max b := by
  intro l
  induction l with
  | nil => intro b; exact le_rfl
  | cons x l ih =>
    intro b
    calc b ≤ max b x := le_max_left _ _
      _ ≤ l.foldl max (max b x) := ih _

/-- Every member bounds a `foldl max`. -/
theorem mem_le_foldl_max : ∀ (l : List Nat) (b x : Nat), x ∈ l →
    x ≤ l.foldl max b := by
  intro l
  induction l with
  | nil => intro b x hx; exact absurd hx (by simp)
  | cons y l ih =>
    intro b x hx
    rcases List.mem_cons.mp hx with rfl | hx
    · calc x ≤ max b x := le_max_right _ _
        _ ≤ l.foldl max (max b x) := init_le_foldl_max _ _
    · exact ih _ x hx

/-- Dropping past a prefix of known length. -/
theorem drop_payload {ds off : Nat} (hle : ds ≤ off) (pre rest : List Byte)
    (hpre : pre.length = ds) :
    (pre ++ rest).drop off = rest.drop (off - ds) := by
  have hoff : off = ds + (off - ds) := by omega
  rw [hoff, ← hpre, List.drop_append, Nat.add_sub_cancel_left]

/-- Unfolding of `lowerF` at a variant. -/
theorem lowerF_variant_eq (f : Nat) (cs : List (Option Ty)) (d : Nat)
    (p : Option Val) (m : Mem) :
    lowerF (f + 1) (Ty.variant cs) (Val.variant d p) m
      = (match cs.get? d, p with
        | some none, none =>
          if d < 256 ^ discSize cs.length then
            some (leBytes (discSize cs.length) d ++ List.replicate
              (sizeF (f + 1) (Ty.variant cs) - discSize cs.length) 0, m)
          else none
        | some (some t'), some pv =>
          if d < 256 ^ discSize cs.length then
            match lowerF f t' pv m with
            | none => none
            | some (pimg, m₁) =>
              some (leBytes (discSize cs.length) d
                ++ (List.replicate (alignUp (discSize cs.length)
                    (alignCasesF f cs) - discSize cs.length) 0
                  ++ (pimg ++ List.replicate (sizeF (f + 1) (Ty.variant cs)
                      - (alignUp (discSize cs.length) (alignCasesF f cs)
                        + pimg.length)) 0)), m₁)
          else none
        | _, _ => none) := rfl

/-- Unfolding of `liftF` at a variant. -/
theorem liftF_variant_eq (f : Nat) (cs : List (Option Ty))
    (img : List Byte) (m : Mem) :
    liftF (f + 1) (Ty.variant cs) img m
      = (match cs.get? (leVal (img.take (discSize cs.length))) with
        | some none =>
          some (Val.variant (leVal (img.take (discSize cs.length))) none)
        | some (some t') =>
          match liftF f t' ((img.drop (alignUp (discSize cs.length)
              (alignCasesF f cs))).take (sizeF f t')) m with
          | none => none
          | some pv =>
            some (Val.variant (leVal (img.take (discSize cs.length)))
              (some pv))
        | none => none) := rfl

/-- Unfolding of `lowerF` at an `option` payload. -/
theorem lowerF_optSome_eq (f : Nat) (t' : Ty) (pv : Val) (m : Mem) :
    lowerF (f + 1) (Ty.option t') (Val.optSome pv) m
      = (match lowerF f t' pv m with
        | none => none
        | some (pimg, m₁) =>
          some (1 :: (List.replicate (alignUp 1 (alignF f t') - 1) 0
            ++ (pimg ++ List.replicate (sizeF (f + 1) (Ty.option t')
                - (alignUp 1 (alignF f t') + pimg.length)) 0)), m₁)) := rfl

/-- Unfolding of `liftF` at an `option`. -/
theorem liftF_option_eq (f : Nat) (t' : Ty) (img : List Byte) (m : Mem) :
    liftF (f + 1) (Ty.option t') img m
      = (match img.head? with
        | none => none
        | some b =>
          if b = 0 then some Val.optNone
          else if b = 1 then
            match liftF f t' ((img.drop (alignUp 1 (alignF f t'))).take
                (sizeF f t')) m with
            | none => none
            | some pv => some (Val.optSome pv)
          else none) := rfl

/-- Unfolding of `lowerF` at a `result` `ok` payload. -/
theorem lowerF_ok_eq (f : Nat) (t' e' : Ty) (pv : Val) (m : Mem) :
    lowerF (f + 1) (Ty.result t' e') (Val.ok pv) m
      = (match lowerF f t' pv m with
        | none => none
        | some (pimg, m₁) =>
          some (0 :: (List.replicate
              (alignUp 1 (max (alignF f t') (alignF f e')) - 1) 0
            ++ (pimg ++ List.replicate (sizeF (f + 1) (Ty.result t' e')
                - (alignUp 1 (max (alignF f t') (alignF f e'))
                  + pimg.length)) 0)), m₁)) := rfl

/-- Unfolding of `lowerF` at a `result` `err` payload. -/
theorem lowerF_err_eq (f : Nat) (t' e' : Ty) (pv : Val) (m : Mem) :
    lowerF (f + 1) (Ty.result t' e') (Val.err pv) m
      = (match lowerF f e' pv m with
        | none => none
        | some (pimg, m₁) =>
          some (1 :: (List.replicate
              (alignUp 1 (max (alignF f t') (alignF f e')) - 1) 0
            ++ (pimg ++ List.replicate (sizeF (f + 1) (Ty.result t' e')
                - (alignUp 1 (max (alignF f t') (alignF f e'))
                  + pimg.length)) 0)), m₁)) := rfl

/-- Unfolding of `liftF` at a `result`. -/
theorem liftF_result_eq (f : Nat) (t' e' : Ty) (img : List Byte) (m : Mem) :
    liftF (f + 1) (Ty.result t' e') img m
      = (match img.head? with
        | none => none
        | some b =>
          if b = 0 then
            match liftF f t' ((img.drop (alignUp 1 (max (alignF f t')
                (alignF f e')))).take (sizeF f t')) m with
            | none => none
            | some pv => some (Val.ok pv)
          else if b = 1 then
            match liftF f e' ((img.drop (alignUp 1 (max (alignF f t')
                (alignF f e')))).take (sizeF f e')) m with
            | none => none
            | some pv => some (Val.err pv)
          else none) := rfl

set_option maxHeartbeats 3000000 in
/-- Combined specification of lowering: the arena only grows, the
image has exactly the type's size, and lifting the image from the final
arena recovers the value — the round-trip `lift (lower v) = v`. -/
theorem lowerF_spec : ∀ (f : Nat) (t : Ty) (v : Val) (m : Mem)
    (img : List Byte) (m' : Mem),
    lowerF f t v m = some (img, m') →
    m <+: m' ∧ img.length = sizeF f t ∧ liftF f t img m' = some v := by
  intro f
  induction f with
  | zero =>
    intro t v m img m' h
    exact Option.noConfusion h
  | succ f ih =>
    intro t v m img m' h
    cases t with
    | bool =>
      cases v <;> try exact Option.noConfusion h
      case bool b =>
        have h2 : some (([if b then 1 else 0] : List Byte), m)
            = some (img, m') := h
        obtain ⟨rfl, rfl⟩ : [if b then (1 : Byte) else 0] = img ∧ m = m' := by
          simpa using h2
        exact ⟨List.prefix_refl _, by cases b <;> rfl, by cases b <;> rfl⟩
    | u8 =>
      cases v <;> try exact Option.noConfusion h
      case u8 n =>
        have h2 : (if n < 256 ^ 1 then some ((leBytes 1 n : List Byte), m)
            else none) = some (img, m') := h
        split at h2
        · next hn =>
          obtain ⟨rfl, rfl⟩ : leBytes 1 n = img ∧ m = m' := by
            simpa using h2
          refine ⟨List.prefix_refl _, leBytes_length 1 n, ?_⟩
          show some (Val.u8 (leVal (leBytes 1 n))) = some (Val.u8 n)
          rw [leVal_leBytes 1 n hn]
        · exact absurd h2 (by simp)
    | u16 =>
      cases v <;> try exact Option.noConfusion h
      case u16 n =>
        have h2 : (if n < 256 ^ 2 then some ((leBytes 2 n : List Byte), m)
            else none) = some (img, m') := h
        split at h2
        · next hn =>
          obtain ⟨rfl, rfl⟩ : leBytes 2 n = img ∧ m = m' := by
            simpa using h2
          refine ⟨List.prefix_refl _, leBytes_length 2 n, ?_⟩
          show some (Val.u16 (leVal (leBytes 2 n))) = some (Val.u16 n)
          rw [leVal_leBytes 2 n hn]
        · exact absurd h2 (by simp)
    | u32 =>
      cases v <;> try exact Option.noConfusion h
      case u32 n =>
        have h2 : (if n < 256 ^ 4 then some ((leBytes 4 n : List Byte), m)
            else none) = some (img, m') := h
        split at h2
        · next hn =>
          obtain ⟨rfl, rfl⟩ : leBytes 4 n = img ∧ m = m' := by
            simpa using h2
          refine ⟨List.prefix_refl _, leBytes_length 4 n, ?_⟩
          show some (Val.u32 (leVal (leBytes 4 n))) = some (Val.u32 n)
          rw [leVal_leBytes 4 n hn]
        · exact absurd h2 (by simp)
    | u64 =>
      cases v <;> try exact Option.noConfusion h
      case u64 n =>
        have h2 : (if n < 256 ^ 8 then some ((leBytes 8 n : List Byte), m)
            else none) = some (img, m') := h
        split at h2
        · next hn =>
          obtain ⟨rfl, rfl⟩ : leBytes 8 n = img ∧ m = m' := by
            simpa using h2
          refine ⟨List.prefix_refl _, leBytes_length 8 n, ?_⟩
          show some (Val.u64 (leVal (leBytes 8 n))) = some (Val.u64 n)
          rw [leVal_leBytes 8 n hn]
        · exact absurd h2 (by simp)
    | s8 =>
      cases v <;> try exact Option.noConfusion h
      case s8 i =>
        have h2 : (if -(2 ^ (8 * 1 - 1) : Int) ≤ i ∧ i < 2 ^ (8 * 1 - 1)
            then some ((leBytes 1 (i % (2 ^ (8 * 1))).toNat : List Byte), m)
            else none) = some (img, m') := h
        split at h2
        · next hn =>
          obtain ⟨rfl, rfl⟩ :
              leBytes 1 (i % (2 ^ (8 * 1))).toNat = img ∧ m = m' := by
            simpa using h2
          refine ⟨List.prefix_refl _, leBytes_length 1 _, ?_⟩
          exact congrArg (fun z => some (Val.s8 z))
            (sintOfLe_leBytes 1 (by omega) i hn.1 hn.2)
        · exact absurd h2 (by simp)
    | s16 =>
      cases v <;> try exact Option.noConfusion h
      case s16 i =>
        have h2 : (if -(2 ^ (8 * 2 - 1) : Int) ≤ i ∧ i < 2 ^ (8 * 2 - 1)
            then some ((leBytes 2 (i % (2 ^ (8 * 2))).toNat : List Byte), m)
            else none) = some (img, m') := h
        split at h2
        · next hn =>
          obtain ⟨rfl, rfl⟩ :
              leBytes 2 (i % (2 ^ (8 * 2))).toNat = img ∧ m = m' := by
            simpa using h2
          refine ⟨List.prefix_refl _, leBytes_length 2 _, ?_⟩
          exact congrArg (fun z => some (Val.s16 z))
            (sintOfLe_leBytes 2 (by omega) i hn.1 hn.2)
        · exact absurd h2 (by simp)
    | s32 =>
      cases v <;> try exact Option.noConfusion h
      case s32 i =>
        have h2 : (if -(2 ^ (8 * 4 - 1) : Int) ≤ i ∧ i < 2 ^ (8 * 4 - 1)
            then some ((leBytes 4 (i % (2 ^ (8 * 4))).toNat : List Byte), m)
            else none) = some (img, m') := h
        split at h2
        · next hn =>
          obtain ⟨rfl, rfl⟩ :
              leBytes 4 (i % (2 ^ (8 * 4))).toNat = img ∧ m = m' := by
            simpa using h2
          refine ⟨List.prefix_refl _, leBytes_length 4 _, ?_⟩
          exact congrArg (fun z => some (Val.s32 z))
            (sintOfLe_leBytes 4 (by omega) i hn.1 hn.2)
        · exact absurd h2 (by simp)
    | s64 =>
      cases v <;> try exact Option.noConfusion h
      case s64 i =>
        have h2 : (if -(2 ^ (8 * 8 - 1) : Int) ≤ i ∧ i < 2 ^ (8 * 8 - 1)
            then some ((leBytes 8 (i % (2 ^ (8 * 8))).toNat : List Byte), m)
            else none) = some (img, m') := h
        split at h2
        · next hn =>
          obtain ⟨rfl, rfl⟩ :
              leBytes 8 (i % (2 ^ (8 * 8))).toNat = img ∧ m = m' := by
            simpa using h2
          refine ⟨List.prefix_refl _, leBytes_length 8 _, ?_⟩
          exact congrArg (fun z => some (Val.s64 z))
            (sintOfLe_leBytes 8 (by omega) i hn.1 hn.2)
        · exact absurd h2 (by simp)
    | f32 =>
      cases v <;> try exact Option.noConfusion h
      case f32 bits =>
        have h2 : (if bits < 256 ^ 4 then
            some ((leBytes 4 bits : List Byte), m) else none)
            = some (img, m') := h
        split at h2
        · next hn =>
          obtain ⟨rfl, rfl⟩ : leBytes 4 bits = img ∧ m = m' := by
            simpa using h2
          refine ⟨List.prefix_refl _, leBytes_length 4 _, ?_⟩
          show some (Val.f32 (leVal (leBytes 4 bits))) = some (Val.f32 bits)
          rw [leVal_leBytes 4 bits hn]
        · exact absurd h2 (by simp)
    | f64 =>
      cases v <;> try exact Option.noConfusion h
      case f64 bits =>
        have h2 : (if bits < 256 ^ 8 then
            some ((leBytes 8 bits : List Byte), m) else none)
            = some (img, m') := h
        split at h2
        · next hn =>
          obtain ⟨rfl, rfl⟩ : leBytes 8 bits = img ∧ m = m' := by
            simpa using h2
          refine ⟨List.prefix_refl _, leBytes_length 8 _, ?_⟩
          show some (Val.f64 (leVal (leBytes 8 bits))) = some (Val.f64 bits)
          rw [leVal_leBytes 8 bits hn]
        · exact absurd h2 (by simp)
    | char =>
      cases v <;> try exact Option.noConfusion h
      case char c =>
        have h2 : (if c < 0xD800 ∨ (0xE000 ≤ c ∧ c < 0x110000) then
            some ((leBytes 4 c : List Byte), m) else none)
            = some (img, m') := h
        split at h2
        · next hc =>
          obtain ⟨rfl, rfl⟩ : leBytes 4 c = img ∧ m = m' := by simpa using h2
          refine ⟨List.prefix_refl _, leBytes_length 4 _, ?_⟩
          show (if leVal (leBytes 4 c) < 0xD800
              ∨ (0xE000 ≤ leVal (leBytes 4 c) ∧ leVal (leBytes 4 c) < 0x110000)
            then some (Val.char (leVal (leBytes 4 c))) else none)
            = some (Val.char c)
          rw [leVal_leBytes 4 c (by norm_num; omega), if_pos hc]
        · exact absurd h2 (by simp)
    | handle =>
      cases v <;> try exact Option.noConfusion h
      case handle ix =>
        have h2 : (if ix < 2 ^ 32 then some ((leBytes 4 ix : List Byte), m)
            else none) = some (img, m') := h
        split at h2
        · next hix =>
          obtain ⟨rfl, rfl⟩ : leBytes 4 ix = img ∧ m = m' := by simpa using h2
          refine ⟨List.prefix_refl _, leBytes_length 4 _, ?_⟩
          show some (Val.handle (leVal (leBytes 4 ix))) = some (Val.handle ix)
          rw [leVal_leBytes 4 ix (by norm_num; omega)]
        · exact absurd h2 (by simp)
    | enum n =>
      cases v <;> try exact Option.noConfusion h
      case enum d =>
        have h2 : (if d < n ∧ d < 256 ^ discSize n then
            some ((leBytes (discSize n) d : List Byte), m) else none)
            = some (img, m') := h
        split at h2
        · next hd =>
          obtain ⟨rfl, rfl⟩ : leBytes (discSize n) d = img ∧ m = m' := by
            simpa using h2
          refine ⟨List.prefix_refl _, leBytes_length _ _, ?_⟩
          show (if leVal ((leBytes (discSize n) d).take (discSize n)) < n
            then some (Val.enum (leVal ((leBytes (discSize n) d).take
              (discSize n)))) else none) = some (Val.enum d)
          rw [List.take_of_length_le (le_of_eq (leBytes_length _ _)),
            leVal_leBytes _ d hd.2, if_pos hd.1]
        · exact absurd h2 (by simp)
    | flags n =>
      cases v <;> try exact Option.noConfusion h
      case flags bits =>
        have h2 : (if bits.length = n ∧ n ≤ 32 then
            some ((leBytes 4 (bitsToNat bits) : List Byte), m) else none)
            = some (img, m') := h
        split at h2
        · next hb =>
          obtain ⟨rfl, rfl⟩ : leBytes 4 (bitsToNat bits) = img ∧ m = m' := by
            simpa using h2
          refine ⟨List.prefix_refl _, leBytes_length 4 _, ?_⟩
          have hlt : bitsToNat bits < 2 ^ n := hb.1 ▸ bitsToNat_lt bits
          have hlt32 : bitsToNat bits < 256 ^ 4 := by
            calc bitsToNat bits < 2 ^ n := hlt
              _ ≤ 2 ^ 32 := Nat.pow_le_pow_right (by omega) hb.2
              _ ≤ 256 ^ 4 := by norm_num
          show (if leVal ((leBytes 4 (bitsToNat bits)).take 4) < 2 ^ n then
              some (Val.flags (natToBits n (leVal ((leBytes 4
                (bitsToNat bits)).take 4)))) else none)
            = some (Val.flags bits)
          rw [List.take_of_length_le (le_of_eq (leBytes_length _ _)),
            leVal_leBytes 4 _ hlt32, if_pos hlt, ← hb.1, natToBits_bitsToNat]
        · exact absurd h2 (by simp)
    | string =>
      cases v <;> try exact Option.noConfusion h
      case string bs =>
        have h2 : (if m.length < 2 ^ 32 ∧ bs.length < 2 ^ 32
              ∧ bs.all (· < 256) then
            some ((leBytes 4 m.length ++ leBytes 4 bs.length : List Byte),
              m ++ [bs])
            else none) = some (img, m') := h
        split at h2
        · next hg =>
          obtain ⟨rfl, rfl⟩ : leBytes 4 m.length ++ leBytes 4 bs.length = img
              ∧ m ++ [bs] = m' := by simpa using h2
          refine ⟨List.prefix_append _ _, by rw [List.length_append, leBytes_length, leBytes_length]; exact (rfl : (4 + 4 : Nat) = 8), ?_⟩
          show (match (m ++ [bs]).get? (leVal ((leBytes 4 m.length
              ++ leBytes 4 bs.length).take 4)) with
            | none => none
            | some region =>
              if region.length = leVal ((leBytes 4 m.length
                  ++ leBytes 4 bs.length).drop 4)
              then some (Val.string region) else none)
            = some (Val.string bs)
          rw [take_len_append (leBytes_length 4 _),
            leVal_leBytes 4 _ (by norm_num; omega),
            List.get?_concat_length,
            drop_len_append (leBytes_length 4 _),
            leVal_leBytes 4 _ (by norm_num; omega)]
          dsimp only
          rw [if_pos rfl]
        · exact absurd h2 (by simp)
    | list t' =>
      cases v <;> try exact Option.noConfusion h
      case list vs =>
        have h2 : (match lowerSeq (lowerF f) t' vs m with
          | none => none
          | some (imgs, m₁) =>
            if m₁.length < 2 ^ 32 ∧ vs.length < 2 ^ 32 then
              some ((leBytes 4 m₁.length ++ leBytes 4 vs.length : List Byte),
                m₁ ++ [imgs.flatten])
            else none) = some (img, m') := h
        cases hs : lowerSeq (lowerF f) t' vs m with
        | none => rw [hs] at h2; exact absurd h2 (by simp)
        | some r =>
          obtain ⟨imgs, m₁⟩ := r
          rw [hs] at h2
          dsimp only at h2
          split at h2
          · next hg =>
            obtain ⟨rfl, rfl⟩ :
                leBytes 4 m₁.length ++ leBytes 4 vs.length = img
                  ∧ m₁ ++ [imgs.flatten] = m' := by simpa using h2
            obtain ⟨hpre, hlens, hcnt, hlift⟩ :=
              lowerSeq_spec (fun v m i mm hh => ih t' v m i mm hh)
                (fun i a b w h1 hq => liftF_mono f t' i a b w h1 hq)
                vs m imgs m₁ hs
            refine ⟨hpre.trans (List.prefix_append _ _), ?_, ?_⟩
            · rw [List.length_append, leBytes_length, leBytes_length]
              exact (rfl : (4 + 4 : Nat) = 8)
            · show (match (m₁ ++ [imgs.flatten]).get? (leVal ((leBytes 4
                  m₁.length ++ leBytes 4 vs.length).take 4)) with
                | none => none
                | some region =>
                  if region.length = leVal ((leBytes 4 m₁.length
                      ++ leBytes 4 vs.length).drop 4) * sizeF f t' then
                    match liftSeq (liftF f) t' (takeChunks (leVal ((leBytes 4
                        m₁.length ++ leBytes 4 vs.length).drop 4))
                        (sizeF f t') region) (m₁ ++ [imgs.flatten]) with
                    | none => none
                    | some vs2 => some (Val.list vs2)
                  else none) = some (Val.list vs)
              rw [take_len_append (leBytes_length 4 _),
                leVal_leBytes 4 _ (by norm_num; omega),
                List.get?_concat_length]
              dsimp only
              rw [drop_len_append (leBytes_length 4 _),
                leVal_leBytes 4 _ (by norm_num; omega)]
              rw [if_pos (by rw [flatten_length_const imgs hlens, hcnt])]
              rw [← hcnt, takeChunks_flatten imgs hlens,
                hlift (m₁ ++ [imgs.flatten]) (List.prefix_append _ _)]
          · exact absurd h2 (by simp)
    | record fs =>
      cases v <;> try exact Option.noConfusion h
      case record vs =>
        have h2 : (match lowerFields (lowerF f) (alignF f) fs vs 0 m with
          | none => none
          | some (body, endOff, m₁) =>
            some ((body ++ List.replicate (sizeF (f + 1) (Ty.record fs)
              - endOff) 0 : List Byte), m₁)) = some (img, m') := h
        cases hs : lowerFields (lowerF f) (alignF f) fs vs 0 m with
        | none => rw [hs] at h2; exact absurd h2 (by simp)
        | some r =>
          obtain ⟨body, endOff, m₁⟩ := r
          rw [hs] at h2
          dsimp only at h2
          obtain ⟨rfl, rfl⟩ : body ++ List.replicate (sizeF (f + 1)
              (Ty.record fs) - endOff) 0 = img ∧ m₁ = m' := by simpa using h2
          obtain ⟨hpre, hle, hlen, hend, hlift⟩ :=
            lowerFields_spec (fun t v m i mm hh => ih t v m i mm hh)
              (fun t i a b w h1 hq => liftF_mono f t i a b w h1 hq)
              fs vs 0 m body endOff m₁ hs
          have hsz : sizeF (f + 1) (Ty.record fs)
              = alignUp (offEndW (sizeF f) (alignF f) fs 0)
                  (alignF (f + 1) (Ty.record fs)) := rfl
          have hbig : endOff ≤ sizeF (f + 1) (Ty.record fs) := by
            rw [hsz, ← hend]
            exact le_alignUp _ _
          refine ⟨hpre, ?_, ?_⟩
          · rw [List.length_append, List.length_replicate]
            omega
          · show (match liftFields (liftF f) (alignF f) (sizeF f) fs
                (body ++ List.replicate (sizeF (f + 1) (Ty.record fs)
                  - endOff) 0) 0 m₁ with
              | none => none
              | some vs2 => some (Val.record vs2)) = some (Val.record vs)
            rw [hlift m₁ (List.prefix_refl _) _]
    | tuple fs =>
      cases v <;> try exact Option.noConfusion h
      case tuple vs =>
        have h2 : (match lowerFields (lowerF f) (alignF f) fs vs 0 m with
          | none => none
          | some (body, endOff, m₁) =>
            some ((body ++ List.replicate (sizeF (f + 1) (Ty.tuple fs)
              - endOff) 0 : List Byte), m₁)) = some (img, m') := h
        cases hs : lowerFields (lowerF f) (alignF f) fs vs 0 m with
        | none => rw [hs] at h2; exact absurd h2 (by simp)
        | some r =>
          obtain ⟨body, endOff, m₁⟩ := r
          rw [hs] at h2
          dsimp only at h2
          obtain ⟨rfl, rfl⟩ : body ++ List.replicate (sizeF (f + 1)
              (Ty.tuple fs) - endOff) 0 = img ∧ m₁ = m' := by simpa using h2
          obtain ⟨hpre, hle, hlen, hend, hlift⟩ :=
            lowerFields_spec (fun t v m i mm hh => ih t v m i mm hh)
              (fun t i a b w h1 hq => liftF_mono f t i a b w h1 hq)
              fs vs 0 m body endOff m₁ hs
          have hsz : sizeF (f + 1) (Ty.tuple fs)
              = alignUp (offEndW (sizeF f) (alignF f) fs 0)
                  (alignF (f + 1) (Ty.tuple fs)) := rfl
          have hbig : endOff ≤ sizeF (f + 1) (Ty.tuple fs) := by
            rw [hsz, ← hend]
            exact le_alignUp _ _
          refine ⟨hpre, ?_, ?_⟩
          · rw [List.length_append, List.length_replicate]
            omega
          · show (match liftFields (liftF f) (alignF f) (sizeF f) fs
                (body ++ List.replicate (sizeF (f + 1) (Ty.tuple fs)
                  - endOff) 0) 0 m₁ with
              | none => none
              | some vs2 => some (Val.tuple vs2)) = some (Val.tuple vs)
            rw [hlift m₁ (List.prefix_refl _) _]
    | variant cs =>
      cases v <;> try exact Option.noConfusion h
      case variant d p =>
        rw [lowerF_variant_eq] at h
        have htot : sizeF (f + 1) (Ty.variant cs)
            = taggedSize (discSize cs.length) (alignCasesF f cs)
                (maxCaseF f cs) := rfl
        have hds := le_alignUp (discSize cs.length) (alignCasesF f cs)
        have hmx : alignUp (discSize cs.length) (alignCasesF f cs)
              + maxCaseF f cs ≤ sizeF (f + 1) (Ty.variant cs) := by
          rw [htot]
          exact le_alignUp _ _
        cases hc : cs.get? d with
        | none =>
          rw [hc] at h
          cases p <;> exact absurd h (by simp)
        | some c =>
          rw [hc] at h
          cases c with
          | none =>
            cases p with
            | some pv => exact absurd h (by simp)
            | none =>
              dsimp only at h
              split at h
              · next hdlt =>
                obtain ⟨rfl, rfl⟩ : leBytes (discSize cs.length) d
                    ++ List.replicate (sizeF (f + 1) (Ty.variant cs)
                      - discSize cs.length) 0 = img ∧ m = m' := by
                  simpa using h
                refine ⟨List.prefix_refl _, ?_, ?_⟩
                · rw [List.length_append, leBytes_length,
                    List.length_replicate]
                  have hds2 : discSize cs.length
                      ≤ sizeF (f + 1) (Ty.variant cs) := by omega
                  omega
                · rw [liftF_variant_eq, take_len_append (leBytes_length _ _),
                    leVal_leBytes _ d hdlt, hc]
              · exact absurd h (by simp)
          | some t' =>
            cases p with
            | none => exact absurd h (by simp)
            | some pv =>
              dsimp only at h
              split at h
              · next hdlt =>
                cases hpl : lowerF f t' pv m with
                | none => rw [hpl] at h; exact absurd h (by simp)
                | some r =>
                  obtain ⟨pimg, m₁⟩ := r
                  rw [hpl] at h
                  dsimp only at h
                  obtain ⟨rfl, rfl⟩ : leBytes (discSize cs.length) d
                      ++ (List.replicate (alignUp (discSize cs.length)
                          (alignCasesF f cs) - discSize cs.length) 0
                        ++ (pimg ++ List.replicate (sizeF (f + 1)
                            (Ty.variant cs) - (alignUp (discSize cs.length)
                              (alignCasesF f cs) + pimg.length)) 0)) = img
                      ∧ m₁ = m' := by simpa using h
                  obtain ⟨hppre, hplen, hplift⟩ := ih t' pv m pimg m₁ hpl
                  have hmem : sizeF f t' ≤ maxCaseF f cs := by
                    apply mem_le_foldl_max
                    exact List.mem_map_of_mem _ (List.get?_mem hc)
                  refine ⟨hppre, ?_, ?_⟩
                  · rw [List.length_append, leBytes_length,
                      List.length_append, List.length_replicate,
                      List.length_append, List.length_replicate]
                    omega
                  · rw [liftF_variant_eq, take_len_append (leBytes_length _ _),
                      leVal_leBytes _ d hdlt, hc]
                    dsimp only
                    rw [drop_payload hds _ _ (leBytes_length _ _),
                      drop_len_append (List.length_replicate _ _),
                      take_len_append hplen, hplift]
              · exact absurd h (by simp)
    | option t' =>
      cases v <;> try exact Option.noConfusion h
      case optNone =>
        have h2 : some ((0 :: List.replicate (sizeF (f + 1) (Ty.option t')
            - 1) 0 : List Byte), m) = some (img, m') := h
        obtain ⟨rfl, rfl⟩ : 0 :: List.replicate (sizeF (f + 1)
            (Ty.option t') - 1) 0 = img ∧ m = m' := by simpa using h2
        have hsz : sizeF (f + 1) (Ty.option t')
            = taggedSize 1 (alignF f t') (sizeF f t') := rfl
        have hle1 := le_alignUp 1 (alignF f t')
        have hle2 : alignUp 1 (alignF f t') + sizeF f t'
            ≤ sizeF (f + 1) (Ty.option t') := by
          rw [hsz]
          exact le_alignUp _ _
        refine ⟨List.prefix_refl _, ?_, ?_⟩
        · rw [List.length_cons, List.length_replicate]
          omega
        · rw [liftF_option_eq]
          rfl
      case optSome pv =>
        rw [lowerF_optSome_eq] at h
        cases hpl : lowerF f t' pv m with
        | none => rw [hpl] at h; exact absurd h (by simp)
        | some r =>
          obtain ⟨pimg, m₁⟩ := r
          rw [hpl] at h
          dsimp only at h
          obtain ⟨rfl, rfl⟩ : 1 :: (List.replicate (alignUp 1 (alignF f t')
              - 1) 0 ++ (pimg ++ List.replicate (sizeF (f + 1)
                (Ty.option t') - (alignUp 1 (alignF f t') + pimg.length)) 0))
              = img ∧ m₁ = m' := by simpa using h
          obtain ⟨hppre, hplen, hplift⟩ := ih t' pv m pimg m₁ hpl
          have hsz : sizeF (f + 1) (Ty.option t')
              = taggedSize 1 (alignF f t') (sizeF f t') := rfl
          have hle1 := le_alignUp 1 (alignF f t')
          have hle2 : alignUp 1 (alignF f t') + sizeF f t'
              ≤ sizeF (f + 1) (Ty.option t') := by
            rw [hsz]
            exact le_alignUp _ _
          refine ⟨hppre, ?_, ?_⟩
          · rw [List.length_cons, List.length_append,
              List.length_replicate, List.length_append,
              List.length_replicate]
            omega
          · rw [liftF_option_eq]
            simp only [List.head?_cons]
            rw [if_neg (by decide : ¬ (1 : Byte) = 0), if_pos trivial]
            have hD : ((1 :: (List.replicate (alignUp 1 (alignF f t') - 1) 0
                ++ (pimg ++ List.replicate (sizeF (f + 1) (Ty.option t')
                  - (alignUp 1 (alignF f t') + pimg.length)) 0))
                : List Byte)).drop (alignUp 1 (alignF f t'))
                = (List.replicate (alignUp 1 (alignF f t') - 1) 0
                  ++ (pimg ++ List.replicate (sizeF (f + 1) (Ty.option t')
                    - (alignUp 1 (alignF f t') + pimg.length)) 0)).drop
                      (alignUp 1 (alignF f t') - 1) :=
              drop_payload hle1 [1] _ rfl
            rw [hD, drop_len_append (List.length_replicate _ _),
              take_len_append hplen, hplift]
    | result t' e' =>
      cases v <;> try exact Option.noConfusion h
      case ok pv =>
        rw [lowerF_ok_eq] at h
        cases hpl : lowerF f t' pv m with
        | none => rw [hpl] at h; exact absurd h (by simp)
        | some r =>
          obtain ⟨pimg, m₁⟩ := r
          rw [hpl] at h
          dsimp only at h
          obtain ⟨rfl, rfl⟩ : (0 : Byte) :: (List.replicate
              (alignUp 1 (max (alignF f t') (alignF f e')) - 1) 0
              ++ (pimg ++ List.replicate (sizeF (f + 1) (Ty.result t' e')
                - (alignUp 1 (max (alignF f t') (alignF f e'))
                  + pimg.length)) 0)) = img ∧ m₁ = m' := by simpa using h
          obtain ⟨hppre, hplen, hplift⟩ := ih t' pv m pimg m₁ hpl
          have hsz : sizeF (f + 1) (Ty.result t' e')
              = taggedSize 1 (max (alignF f t') (alignF f e'))
                  (max (sizeF f t') (sizeF f e')) := rfl
          have hle1 := le_alignUp 1 (max (alignF f t') (alignF f e'))
          have hle2 : alignUp 1 (max (alignF f t') (alignF f e'))
              + max (sizeF f t') (sizeF f e')
              ≤ sizeF (f + 1) (Ty.result t' e') := by
            rw [hsz]
            exact le_alignUp _ _
          have hmx2 : sizeF f t' ≤ max (sizeF f t') (sizeF f e') :=
            le_max_left _ _
          refine ⟨hppre, ?_, ?_⟩
          · rw [List.length_cons, List.length_append,
              List.length_replicate, List.length_append,
              List.length_replicate]
            omega
          · rw [liftF_result_eq]
            simp only [List.head?_cons]
            rw [if_pos trivial]
            have hD : (((0 : Byte) :: (List.replicate
                (alignUp 1 (max (alignF f t') (alignF f e')) - 1) 0
                ++ (pimg ++ List.replicate (sizeF (f + 1) (Ty.result t' e')
                  - (alignUp 1 (max (alignF f t') (alignF f e'))
                    + pimg.length)) 0)) : List Byte)).drop
                  (alignUp 1 (max (alignF f t') (alignF f e')))
                = (List.replicate (alignUp 1 (max (alignF f t')
                    (alignF f e')) - 1) 0
                  ++ (pimg ++ List.replicate (sizeF (f + 1)
                    (Ty.result t' e') - (alignUp 1 (max (alignF f t')
                      (alignF f e')) + pimg.length)) 0)).drop
                      (alignUp 1 (max (alignF f t') (alignF f e')) - 1) :=
              drop_payload hle1 [0] _ rfl
            rw [hD, drop_len_append (List.length_replicate _ _),
              take_len_append hplen, hplift]
      case err pv =>
        rw [lowerF_err_eq] at h
        cases hpl : lowerF f e' pv m with
        | none => rw [hpl] at h; exact absurd h (by simp)
        | some r =>
          obtain ⟨pimg, m₁⟩ := r
          rw [hpl] at h
          dsimp only at h
          obtain ⟨rfl, rfl⟩ : (1 : Byte) :: (List.replicate
              (alignUp 1 (max (alignF f t') (alignF f e')) - 1) 0
              ++ (pimg ++ List.replicate (sizeF (f + 1) (Ty.result t' e')
                - (alignUp 1 (max (alignF f t') (alignF f e'))
                  + pimg.length)) 0)) = img ∧ m₁ = m' := by simpa using h
          obtain ⟨hppre, hplen, hplift⟩ := ih e' pv m pimg m₁ hpl
          have hsz : sizeF (f + 1) (Ty.result t' e')
              = taggedSize 1 (max (alignF f t') (alignF f e'))
                  (max (sizeF f t') (sizeF f e')) := rfl
          have hle1 := le_alignUp 1 (max (alignF f t') (alignF f e'))
          have hle2 : alignUp 1 (max (alignF f t') (alignF f e'))
              + max (sizeF f t') (sizeF f e')
              ≤ sizeF (f + 1) (Ty.result t' e') := by
            rw [hsz]
            exact le_alignUp _ _
          have hmx2 : sizeF f e' ≤ max (sizeF f t') (sizeF f e') :=
            le_max_right _ _
          refine ⟨hppre, ?_, ?_⟩
          · rw [List.length_cons, List.length_append,
              List.length_replicate, List.length_append,
              List.length_replicate]
            omega
          · rw [liftF_result_eq]
            simp only [List.head?_cons]
            rw [if_neg (by decide : ¬ (1 : Byte) = 0), if_pos trivial]
            have hD : (((1 : Byte) :: (List.replicate
                (alignUp 1 (max (alignF f t') (alignF f e')) - 1) 0
                ++ (pimg ++ List.replicate (sizeF (f + 1) (Ty.result t' e')
                  - (alignUp 1 (max (alignF f t') (alignF f e'))
                    + pimg.length)) 0)) : List Byte)).drop
                  (alignUp 1 (max (alignF f t') (alignF f e')))
                = (List.replicate (alignUp 1 (max (alignF f t')
                    (alignF f e')) - 1) 0
                  ++ (pimg ++ List.replicate (sizeF (f + 1)
                    (Ty.result t' e') - (alignUp 1 (max (alignF f t')
                      (alignF f e')) + pimg.length)) 0)).drop
                      (alignUp 1 (max (alignF f t') (alignF f e')) - 1) :=
              drop_payload hle1 [1] _ rfl
            rw [hD, drop_len_append (List.length_replicate _ _),
              take_len_append hplen, hplift]



/-- C9: for every schema type `t` and every logical value `v` of that
type, lifting the flat representation produced by lowering `v` yields
`v` again: `lift (lower v) = v` for the Canonical ABI lift and lower
operations. -/
theorem lift_lower_roundtrip (f : Nat) (t : Ty) (v : Val) (m : Mem)
    (img : List Byte) (m' : Mem) (h : lowerF f t v m = some (img, m')) :
    liftF f t img m' = some v :=
  (lowerF_spec f t v m img m' h).2.2

/-- Witness: lowering a concrete record of a `u8` and a string produces
this flat image and arena, and lifting them recovers the value. -/
theorem lift_lower_roundtrip_witness :
    lowerF 5 (Ty.record [Ty.u8, Ty.string])
        (Val.record [Val.u8 3, Val.string [104, 105]]) []
      = some ([3, 0, 0, 0, 0, 0, 0, 0, 2, 0, 0, 0], [[104, 105]]) ∧
    liftF 5 (Ty.record [Ty.u8, Ty.string])
        [3, 0, 0, 0, 0, 0, 0, 0, 2, 0, 0, 0] [[104, 105]]
      = some (Val.record [Val.u8 3, Val.string [104, 105]]) :=
  ⟨rfl, lift_lower_roundtrip 5 (Ty.record [Ty.u8, Ty.string])
    (Val.record [Val.u8 3, Val.string [104, 105]]) []
    [3, 0, 0, 0, 0, 0, 0, 0, 2, 0, 0, 0] [[104, 105]] rfl⟩

end Abi
